import Mathlib

/-!
# comb2M: the pairwise-difference table of a numeric vector

A shallow embedding of `src/comb2M.cpp` (an Rcpp function) and the proofs of
its specification.

Modelling decisions, all visible in the definitions below:

* `Dbl` stands for the C++ type `double`: NaN, the two infinities, and the
  finite values.  Finite values are rationals and subtraction of finite values
  is exact: rounding, signed zeros and NaN payloads are not modelled.  The
  comparison `>` is false as soon as one operand is NaN.
* `int` is the 32-bit signed integer.  A narrowing integer conversion wraps
  (`toInt`); a floating to integer conversion out of range, undefined in C++,
  yields INT_MIN as on the x86-64 target (`doubleToInt`); a signed overflow is
  undefined behaviour.
* A call either returns, or raises an R error, or reaches undefined behaviour
  (`Outcome`).  The matrix constructor raises an R error for a negative
  extent.  Failure of the memory allocation is not modelled.
* `Dbl.eq` is the comparison `==` of doubles, false as soon as one operand is
  NaN; the equality `=` of Lean on `Dbl` identifies all NaNs.
* `NumericMatrix` is Rcpp's column-major matrix: cell `(i, j)` is stored at
  offset `i + nrow * j`; `out(i, j) = v` does not check its bounds in C++, the
  model reports an out-of-bounds access as undefined behaviour.
-/

/-! ## The type double -/

/-- Values of the C++ type double. -/
inductive Dbl where
  | nan
  | posInf
  | negInf
  | fin (q : ℚ)
deriving DecidableEq

instance : Inhabited Dbl := ⟨Dbl.fin 0⟩

instance : Zero Dbl := ⟨Dbl.fin 0⟩

/-- The C++ operator `-` on doubles: `x - y`. -/
def Dbl.sub : Dbl → Dbl → Dbl
  | Dbl.nan, _ => Dbl.nan
  | _, Dbl.nan => Dbl.nan
  | Dbl.fin p, Dbl.fin q => Dbl.fin (p - q)
  | Dbl.posInf, Dbl.posInf => Dbl.nan
  | Dbl.negInf, Dbl.negInf => Dbl.nan
  | Dbl.posInf, _ => Dbl.posInf
  | Dbl.negInf, _ => Dbl.negInf
  | Dbl.fin _, Dbl.posInf => Dbl.negInf
  | Dbl.fin _, Dbl.negInf => Dbl.posInf

/-- The C++ operator `>` on doubles: `x > y`; false when an operand is NaN. -/
def Dbl.gt : Dbl → Dbl → Bool
  | Dbl.nan, _ => false
  | _, Dbl.nan => false
  | Dbl.fin p, Dbl.fin q => decide (q < p)
  | Dbl.posInf, Dbl.posInf => false
  | Dbl.posInf, _ => true
  | Dbl.negInf, _ => false
  | Dbl.fin _, Dbl.posInf => false
  | Dbl.fin _, Dbl.negInf => true

/-- The absolute-value primitive on doubles (`fabs`). -/
def Dbl.abs : Dbl → Dbl
  | Dbl.nan => Dbl.nan
  | Dbl.posInf => Dbl.posInf
  | Dbl.negInf => Dbl.posInf
  | Dbl.fin q => Dbl.fin |q|

/-- The value is NaN. -/
def Dbl.isNaN : Dbl → Bool
  | Dbl.nan => true
  | _ => false

/-- The value is finite: neither NaN nor an infinity. -/
def Dbl.isFinite : Dbl → Bool
  | Dbl.fin _ => true
  | _ => false

/-- The C++ operator `==` on doubles: false when an operand is NaN. -/
def Dbl.eq : Dbl → Dbl → Bool
  | Dbl.nan, _ => false
  | _, Dbl.nan => false
  | Dbl.fin p, Dbl.fin q => decide (p = q)
  | Dbl.posInf, Dbl.posInf => true
  | Dbl.negInf, Dbl.negInf => true
  | _, _ => false

/-- The comparison `0 <= x` on doubles; false when `x` is NaN. -/
def Dbl.nonneg : Dbl → Bool
  | Dbl.nan => false
  | Dbl.posInf => true
  | Dbl.negInf => false
  | Dbl.fin q => decide (0 ≤ q)

/-! ## Outcomes of a call and machine integers -/

/-- The kinds of undefined behaviour the function can reach. -/
inductive Undef where
  | signedOverflow
  | outOfBounds
deriving DecidableEq

/-- What a call does: it returns a value, raises an R error, or reaches
undefined behaviour. -/
inductive Outcome (σ : Type) where
  | returned (v : σ)
  | raised
  | undefined (u : Undef)
deriving DecidableEq

/-- Sequencing of two steps: a step that does not return ends the call. -/
def Outcome.bind {σ τ : Type} : Outcome σ → (σ → Outcome τ) → Outcome τ
  | Outcome.returned v, f => f v
  | Outcome.raised, _ => Outcome.raised
  | Outcome.undefined u, _ => Outcome.undefined u

instance : Monad Outcome where
  pure := Outcome.returned
  bind := Outcome.bind

/-- The largest value of the type int. -/
def INT_MAX : Int := 2147483647

/-- The smallest value of the type int. -/
def INT_MIN : Int := -2147483648

/-- Narrowing of an integer to the 32-bit signed int: the value modulo 2^32
in the range INT_MIN .. INT_MAX. -/
def toInt (n : Int) : Int := (n + 2147483648) % 4294967296 - 2147483648

/-- Modelled from the spec: Rf_choose is a function of R's C interface, absent
from the repository; the spec's glossary gives C(N,2) = N*(N-1)/2, and this is
the product formula n (n-1) ... (n-k+1) / k! of which that is the case k = 2. -/
def Rf_choose (n : Int) (k : Nat) : Int :=
  ((List.range k).map fun j => n - (j : Int)).prod / (k.factorial : Int)

/-! ## The matrix -/

/-- Rcpp's NumericMatrix: `nrow * ncol` doubles stored column by column. -/
structure NumericMatrix where
  nrow : Nat
  ncol : Nat
  data : List Dbl
deriving DecidableEq

/-- The conversion to int of a double of integral value `v`: `v` itself when
it lies in INT_MIN .. INT_MAX; out of that range the conversion is undefined in
C++ and yields INT_MIN, the value the x86-64 conversion instruction returns. -/
def doubleToInt (v : Int) : Int :=
  if INT_MIN ≤ v ∧ v ≤ INT_MAX then v else INT_MIN

/-- The constructor `NumericMatrix out(nrows, ncols)` called with a double
column count: the count is converted to int, a negative extent raises the R
error "negative length vectors are not allowed", and the cells are
zero-filled. -/
def NumericMatrix.create (nrows : Nat) (ncols : Int) : Outcome NumericMatrix :=
  if doubleToInt ncols < 0 then Outcome.raised
  else Outcome.returned
    ⟨nrows, (doubleToInt ncols).toNat, List.replicate (nrows * (doubleToInt ncols).toNat) 0⟩

/-- The cell `(i, j)` of a matrix. -/
def NumericMatrix.get (m : NumericMatrix) (i j : Nat) : Dbl :=
  m.data.getD (i + m.nrow * j) 0

/-- The column `j` of a three-row matrix, as (row 0, row 1, row 2). -/
def NumericMatrix.column (m : NumericMatrix) (j : Nat) : Dbl × Dbl × Dbl :=
  (m.get 0 j, m.get 1 j, m.get 2 j)

/-- The columns of a three-row matrix, in order. -/
def NumericMatrix.columns (m : NumericMatrix) : List (Dbl × Dbl × Dbl) :=
  (List.range m.ncol).map m.column

/-! ## The function -/

/-- The local state of comb2M inside the loops: the matrix `out`, the int
`counter`, and a log of the cells `(row, column)` written so far. -/
structure Frame where
  out : NumericMatrix
  counter : Int
  writes : List (Nat × Int)
deriving DecidableEq

/-- The read `x[a]`. -/
def readAt (x : List Dbl) (a : Nat) : Outcome Dbl :=
  match x[a]? with
  | some v => Outcome.returned v
  | none => Outcome.undefined Undef.outOfBounds

/-- The assignment `out(i, counter) = v`. -/
def Frame.assign (s : Frame) (i : Nat) (v : Dbl) : Outcome Frame :=
  if i < s.out.nrow ∧ 0 ≤ s.counter ∧ s.counter < (s.out.ncol : Int) then
    Outcome.returned
      { out := { nrow := s.out.nrow, ncol := s.out.ncol,
                 data := s.out.data.set (i + s.out.nrow * s.counter.toNat) v },
        counter := s.counter,
        writes := s.writes ++ [(i, s.counter)] }
  else Outcome.undefined Undef.outOfBounds

/-- The increment `++counter`. -/
def Frame.incr (s : Frame) : Outcome Frame :=
  if s.counter < INT_MAX then
    Outcome.returned { out := s.out, counter := s.counter + 1, writes := s.writes }
  else Outcome.undefined Undef.signedOverflow

/-- The body of the inner loop (lines 18 to 25). -/
def loopBody (x : List Dbl) (a b : Nat) (s : Frame) : Outcome Frame := do
  let s ← s.assign 0 (← readAt x a)
  let s ← s.assign 1 (← readAt x b)
  let s ←
    if Dbl.gt (← readAt x b) (← readAt x a) then do
      s.assign 2 (Dbl.sub (← readAt x b) (← readAt x a))
    else do
      s.assign 2 (Dbl.sub (← readAt x a) (← readAt x b))
  s.incr

/-- A counted for loop: the body is run for each index of the list in turn. -/
def forLoop {ι : Type} (body : ι → Frame → Outcome Frame) : List ι → Frame → Outcome Frame
  | [], s => Outcome.returned s
  | i :: is, s => (body i s).bind (forLoop body is)

/-- The inner loop `for (int b = a+1; b < xlen; ++b)`. -/
def innerLoop (x : List Dbl) (xlen : Int) (a : Nat) (s : Frame) : Outcome Frame :=
  forLoop (loopBody x a) (List.range' (a + 1) (xlen.toNat - (a + 1))) s

/-- The outer loop `for (int a = 0; a < xlen; ++a)`. -/
def outerLoop (x : List Dbl) (xlen : Int) (s : Frame) : Outcome Frame :=
  forLoop (innerLoop x xlen) (List.range xlen.toNat) s

/-- The function comb2M up to the end of the loops, with its local state. -/
def comb2MFrame (x : List Dbl) : Outcome Frame := do
  let xlen : Int := toInt x.length
  let counter : Int := 0
  let outsize : Int := Rf_choose xlen 2
  let out ← NumericMatrix.create 3 outsize
  outerLoop x xlen { out := out, counter := counter, writes := [] }

/-- The function comb2M: the matrix `out` is returned. -/
def comb2M (x : List Dbl) : Outcome NumericMatrix := do
  let s ← comb2MFrame x
  return s.out


/-! ## The variant with the absolute-value primitive -/

/-- The loop body of the variant the specification describes: row 2 is written
with the absolute-value primitive applied to the subtraction `x[b] - x[a]`,
in place of the comparison of lines 20 to 24. -/
def loopBodyAbs (x : List Dbl) (a b : Nat) (s : Frame) : Outcome Frame := do
  let s ← s.assign 0 (← readAt x a)
  let s ← s.assign 1 (← readAt x b)
  let s ← s.assign 2 (Dbl.abs (Dbl.sub (← readAt x b) (← readAt x a)))
  s.incr

/-- The inner loop of the variant. -/
def innerLoopAbs (x : List Dbl) (xlen : Int) (a : Nat) (s : Frame) : Outcome Frame :=
  forLoop (loopBodyAbs x a) (List.range' (a + 1) (xlen.toNat - (a + 1))) s

/-- The outer loop of the variant. -/
def outerLoopAbs (x : List Dbl) (xlen : Int) (s : Frame) : Outcome Frame :=
  forLoop (innerLoopAbs x xlen) (List.range xlen.toNat) s

/-- The variant up to the end of the loops, with its local state. -/
def comb2MAbsFrame (x : List Dbl) : Outcome Frame := do
  let xlen : Int := toInt x.length
  let counter : Int := 0
  let outsize : Int := Rf_choose xlen 2
  let out ← NumericMatrix.create 3 outsize
  outerLoopAbs x xlen { out := out, counter := counter, writes := [] }

/-- The variant of comb2M that writes `|x[b] - x[a]|` with the absolute-value
primitive; everything else is as in comb2M. -/
def comb2MAbs (x : List Dbl) : Outcome NumericMatrix := do
  let s ← comb2MAbsFrame x
  return s.out

/-! ## The table of the specification and the loop invariant -/

/-- The number of pairs of a sequence of length `n`: n*(n-1)/2. -/
def pairCount (n : Nat) : Nat := n * (n - 1) / 2

/-- The index pairs (a, b) in the order of the double loop: a ascending from 0
to n-1 and, for each a, b ascending from a+1 to n-1. -/
def indexPairs (n : Nat) : List (Nat × Nat) :=
  (List.range n).flatMap fun a => (List.range' (a + 1) (n - (a + 1))).map fun b => (a, b)

/-- The table as the specification words it: the columns
(x[a], x[b], |x[b] - x[a]|) over the index pairs in loop order. -/
def pairTable (x : List Dbl) : List (Dbl × Dbl × Dbl) :=
  (indexPairs x.length).map fun p =>
    (x.getD p.1 0, x.getD p.2 0, Dbl.abs (Dbl.sub (x.getD p.2 0) (x.getD p.1 0)))

/-- The difference as the code computes it, by comparison (lines 20 to 24). -/
def branchDiff (xa xb : Dbl) : Dbl :=
  if Dbl.gt xb xa then Dbl.sub xb xa else Dbl.sub xa xb

/-- The column the loop body writes for the index pair `p`. -/
def columnOf (x : List Dbl) (p : Nat × Nat) : Dbl × Dbl × Dbl :=
  (x.getD p.1 0, x.getD p.2 0, branchDiff (x.getD p.1 0) (x.getD p.2 0))

/-- The cells of a list of columns, column by column. -/
def cellsOf (cols : List (Dbl × Dbl × Dbl)) : List Dbl :=
  cols.flatMap fun c => [c.1, c.2.1, c.2.2]

/-- The cells written for the columns `k`, `k+1`, ... `k+n-1`, in order. -/
def writesOf (k n : Nat) : List (Nat × Int) :=
  (List.range' k n).flatMap fun c => [(0, (c : Int)), (1, (c : Int)), (2, (c : Int))]

/-- The local state once the columns `cols` have been written into a matrix of
`ncol` columns: the loop invariant. -/
def frameAfter (ncol : Nat) (cols : List (Dbl × Dbl × Dbl)) : Frame :=
  { out := { nrow := 3, ncol := ncol,
             data := cellsOf cols ++ List.replicate (3 * (ncol - cols.length)) 0 },
    counter := (cols.length : Int),
    writes := writesOf 0 cols.length }

/-! ## Definitions for the relational properties -/

/-- The matrix constructor when the cells of the block it allocates hold
`fill i` before the call: the state an earlier call may have left in memory.
Rcpp's constructor zero-fills, which is `fill` constantly 0. -/
def NumericMatrix.createOver (fill : Nat → Dbl) (nrows : Nat) (ncols : Int) :
    Outcome NumericMatrix :=
  if doubleToInt ncols < 0 then Outcome.raised
  else Outcome.returned
    ⟨nrows, (doubleToInt ncols).toNat,
      (List.range (nrows * (doubleToInt ncols).toNat)).map fill⟩

/-- The function comb2M run with the matrix allocated over a block whose cells
hold `fill i` before the call; everything else is as in comb2M. -/
def comb2MOver (fill : Nat → Dbl) (x : List Dbl) : Outcome NumericMatrix := do
  let xlen : Int := toInt x.length
  let counter : Int := 0
  let outsize : Int := Rf_choose xlen 2
  let out ← NumericMatrix.createOver fill 3 outsize
  let s ← outerLoop x xlen { out := out, counter := counter, writes := [] }
  return s.out

/-- Two calls of comb2M one after the other on the same input, the matrix of
each allocated over a block of arbitrary prior content: the pair of the tables
they return. -/
def comb2MTwice (fill1 fill2 : Nat → Dbl) (x : List Dbl) :
    Outcome (NumericMatrix × NumericMatrix) := do
  let first ← comb2MOver fill1 x
  let second ← comb2MOver fill2 x
  return (first, second)

/-- The local state once the columns `cols` have been written into a matrix of
`ncol` columns allocated over a block of prior content `fill`. -/
def frameOver (fill : Nat → Dbl) (ncol : Nat) (cols : List (Dbl × Dbl × Dbl)) : Frame :=
  { out := { nrow := 3, ncol := ncol,
             data := cellsOf cols
               ++ (List.range' (3 * cols.length) (3 * (ncol - cols.length))).map fill },
    counter := (cols.length : Int),
    writes := writesOf 0 cols.length }

/-- The column index of the pair (a, b), a < b, for an input of length `n`:
a*(2n - a - 1)/2 + (b - a - 1). -/
def pairIndex (n a b : Nat) : Nat := a * (2 * n - a - 1) / 2 + (b - a - 1)

/-- The absolute differences of all pairs of a sequence, by recursion on the
sequence: those of the head with each later element, then those of the tail. -/
def pairDiffs : List Dbl → List Dbl
  | [] => []
  | v :: xs => xs.map (fun u => Dbl.abs (Dbl.sub u v)) ++ pairDiffs xs

/-- Row 2 of a three-row matrix, in column order. -/
def NumericMatrix.row2 (m : NumericMatrix) : List Dbl :=
  (List.range m.ncol).map fun j => m.get 2 j

/-! ## Auxiliary facts -/

@[simp] theorem Outcome.returned_bind {σ τ : Type} (v : σ) (f : σ → Outcome τ) :
    (Outcome.returned v >>= f) = f v := rfl

@[simp] theorem Outcome.pure_eq {σ : Type} (v : σ) :
    (pure v : Outcome σ) = Outcome.returned v := rfl

theorem readAt_eq (x : List Dbl) (a : Nat) (h : a < x.length) :
    readAt x a = Outcome.returned (x.getD a 0) := by
  simp [readAt, List.getD, List.getElem?_eq_getElem h]

theorem cellsOf_append (cs ds : List (Dbl × Dbl × Dbl)) :
    cellsOf (cs ++ ds) = cellsOf cs ++ cellsOf ds := by
  simp [cellsOf]

theorem cellsOf_length (cs : List (Dbl × Dbl × Dbl)) : (cellsOf cs).length = 3 * cs.length := by
  induction cs with
  | nil => rfl
  | cons c cs ih => simp [cellsOf] at ih ⊢; omega

theorem writesOf_succ (n : Nat) :
    writesOf 0 (n + 1) = writesOf 0 n ++ [(0, (n : Int)), (1, (n : Int)), (2, (n : Int))] := by
  simp [writesOf, List.range'_concat]

theorem set_three (l rest : List Dbl) (k : Nat) (hl : l.length = 3 * k) (a b c u v w : Dbl) :
    (((l ++ a :: b :: c :: rest).set (0 + 3 * k) u).set (1 + 3 * k) v).set (2 + 3 * k) w
      = l ++ u :: v :: w :: rest := by
  have h0 : 0 + 3 * k = l.length := by omega
  have h1 : 1 + 3 * k = l.length + 1 := by omega
  have h2 : 2 + 3 * k = l.length + 2 := by omega
  rw [h0, h1, h2]
  simp [List.set_append]

theorem assign_mk (nrow ncol : Nat) (data : List Dbl) (k : Nat) (w : List (Nat × Int))
    (i : Nat) (v : Dbl) (hi : i < nrow) (hk : k < ncol) :
    Frame.assign ⟨⟨nrow, ncol, data⟩, (k : Int), w⟩ i v
      = Outcome.returned ⟨⟨nrow, ncol, data.set (i + nrow * k) v⟩, (k : Int), w ++ [(i, (k : Int))]⟩ := by
  simp [Frame.assign, hi, hk]

theorem incr_mk (out : NumericMatrix) (k : Nat) (w : List (Nat × Int))
    (hk : (k : Int) < INT_MAX) :
    Frame.incr ⟨out, (k : Int), w⟩ = Outcome.returned ⟨out, ((k + 1 : Nat) : Int), w⟩ := by
  simp [Frame.incr, hk]

theorem loopBody_frameAfter (x : List Dbl) (a b ncol : Nat) (cols : List (Dbl × Dbl × Dbl))
    (ha : a < x.length) (hb : b < x.length) (hk : cols.length < ncol)
    (hn : (ncol : Int) ≤ INT_MAX) :
    loopBody x a b (frameAfter ncol cols)
      = Outcome.returned (frameAfter ncol (cols ++ [columnOf x (a, b)])) := by
  have hrep : List.replicate (3 * (ncol - cols.length)) (0 : Dbl)
      = 0 :: 0 :: 0 :: List.replicate (3 * (ncol - (cols.length + 1))) 0 := by
    have : 3 * (ncol - cols.length) = 3 * (ncol - (cols.length + 1)) + 3 := by omega
    rw [this]; rfl
  have hc2 : (cols.length : Int) < (ncol : Int) := by omega
  have hc : (cols.length : Int) < INT_MAX := lt_of_lt_of_le hc2 hn
  have h0 : (0 : Nat) < 3 := by omega
  have h1 : (1 : Nat) < 3 := by omega
  have h2 : (2 : Nat) < 3 := by omega
  unfold loopBody
  simp only [readAt_eq x a ha, readAt_eq x b hb, Outcome.returned_bind, frameAfter]
  rw [assign_mk _ _ _ _ _ _ _ h0 hk, Outcome.returned_bind, assign_mk _ _ _ _ _ _ _ h1 hk,
    Outcome.returned_bind]
  simp only [assign_mk _ _ _ _ _ _ _ h2 hk]
  have hfin : ∀ d : Dbl,
      (Outcome.returned
        (⟨⟨3, ncol, (((cellsOf cols ++ List.replicate (3 * (ncol - cols.length)) 0).set
            (0 + 3 * cols.length) (x.getD a 0)).set (1 + 3 * cols.length) (x.getD b 0)).set
            (2 + 3 * cols.length) d⟩, (cols.length : Int),
          writesOf 0 cols.length ++ [(0, (cols.length : Int))] ++ [(1, (cols.length : Int))]
            ++ [(2, (cols.length : Int))]⟩ : Frame) >>= Frame.incr)
      = Outcome.returned
        ⟨⟨3, ncol, cellsOf (cols ++ [(x.getD a 0, x.getD b 0, d)])
            ++ List.replicate (3 * (ncol - (cols ++ [(x.getD a 0, x.getD b 0, d)]).length)) 0⟩,
          ((cols ++ [(x.getD a 0, x.getD b 0, d)]).length : Int),
          writesOf 0 (cols ++ [(x.getD a 0, x.getD b 0, d)]).length⟩ := by
    intro d
    rw [Outcome.returned_bind, incr_mk _ _ _ hc, hrep, set_three _ _ _ (cellsOf_length cols)]
    simp [cellsOf_append, cellsOf, writesOf_succ]
  by_cases hgt : Dbl.gt (x.getD b 0) (x.getD a 0) = true
  · rw [if_pos hgt, hfin]
    unfold columnOf branchDiff
    rw [if_pos hgt]
  · rw [if_neg hgt, hfin]
    unfold columnOf branchDiff
    rw [if_neg hgt]

theorem forLoop_append {ι : Type} (body : ι → Frame → Outcome Frame) (is js : List ι) (s : Frame) :
    forLoop body (is ++ js) s = (forLoop body is s).bind (forLoop body js) := by
  induction is generalizing s with
  | nil => rfl
  | cons i is ih =>
    simp only [List.cons_append, forLoop]
    cases body i s with
    | returned v => exact ih v
    | raised => rfl
    | undefined u => rfl

theorem forLoop_map {ι κ : Type} (f : κ → ι) (body : ι → Frame → Outcome Frame) (ks : List κ)
    (s : Frame) : forLoop body (ks.map f) s = forLoop (fun k => body (f k)) ks s := by
  induction ks generalizing s with
  | nil => rfl
  | cons k ks ih =>
    simp only [List.map_cons, forLoop]
    cases body (f k) s with
    | returned v => exact ih v
    | raised => rfl
    | undefined u => rfl

theorem forLoop_nested {ι κ : Type} (f : ι → List κ) (g : ι → κ → Frame → Outcome Frame)
    (is : List ι) (s : Frame) :
    forLoop (fun i t => forLoop (g i) (f i) t) is s
      = forLoop (fun p => g p.1 p.2) (is.flatMap fun i => (f i).map fun k => (i, k)) s := by
  induction is generalizing s with
  | nil => rfl
  | cons i is ih =>
    simp only [List.flatMap_cons, forLoop, forLoop_append, forLoop_map]
    cases forLoop (g i) (f i) s with
    | returned v => exact ih v
    | raised => rfl
    | undefined u => rfl

theorem forLoop_pairs (x : List Dbl) (ncol : Nat) (hn : (ncol : Int) ≤ INT_MAX)
    (ps : List (Nat × Nat)) (cols : List (Dbl × Dbl × Dbl))
    (hps : ∀ p ∈ ps, p.1 < x.length ∧ p.2 < x.length) (hlen : cols.length + ps.length ≤ ncol) :
    forLoop (fun p => loopBody x p.1 p.2) ps (frameAfter ncol cols)
      = Outcome.returned (frameAfter ncol (cols ++ ps.map (columnOf x))) := by
  induction ps generalizing cols with
  | nil => simp [forLoop]
  | cons p ps ih =>
    have hp := hps p (List.mem_cons_self _ _)
    have hk : cols.length < ncol := by simp at hlen; omega
    simp only [forLoop, loopBody_frameAfter x p.1 p.2 ncol cols hp.1 hp.2 hk hn]
    have := ih (cols ++ [columnOf x (p.1, p.2)])
      (fun q hq => hps q (List.mem_cons_of_mem _ hq)) (by simp at hlen ⊢; omega)
    simpa [Outcome.bind] using this

theorem mem_indexPairs (n : Nat) (p : Nat × Nat) (h : p ∈ indexPairs n) : p.1 < p.2 ∧ p.2 < n := by
  simp only [indexPairs, List.mem_flatMap, List.mem_range, List.mem_map, List.mem_range'_1] at h
  obtain ⟨a, ha, b, hb, rfl⟩ := h
  constructor <;> simp <;> omega

theorem pairsFrom_length (m a : Nat) :
    ((List.range' a m).flatMap fun i =>
      (List.range' (i + 1) (a + m - (i + 1))).map fun k => (i, k)).length = m.choose 2 := by
  induction m generalizing a with
  | zero => simp
  | succ m ih =>
    have h := ih (a + 1)
    have e : a + 1 + m = a + (m + 1) := by omega
    rw [e] at h
    simp only [List.range'_succ, List.flatMap_cons, List.length_append, List.length_map,
      List.length_range', h]
    have hc : (m + 1).choose 2 = m.choose 1 + m.choose 2 := Nat.choose_succ_succ m 1
    rw [hc, Nat.choose_one_right]
    omega

theorem indexPairs_length (n : Nat) : (indexPairs n).length = pairCount n := by
  have h := pairsFrom_length n 0
  simp only [Nat.zero_add] at h
  rw [indexPairs, List.range_eq_range', h, Nat.choose_two_right, pairCount]

theorem pairCount_mono {m n : Nat} (h : m ≤ n) : pairCount m ≤ pairCount n := by
  unfold pairCount
  exact Nat.div_le_div_right (Nat.mul_le_mul h (Nat.sub_le_sub_right h 1))

theorem pairCount_fits_iff (n : Nat) : (pairCount n : Int) ≤ INT_MAX ↔ n ≤ 65536 := by
  have e : (pairCount n : Int) ≤ INT_MAX ↔ pairCount n ≤ 2147483647 := by
    unfold INT_MAX; exact Int.ofNat_le
  rw [e]
  constructor
  · intro h
    by_contra hlt
    have h1 : pairCount 65537 ≤ pairCount n := pairCount_mono (by omega)
    have h2 : pairCount 65537 = 2147516416 := by decide
    omega
  · intro h
    have h1 : pairCount n ≤ pairCount 65536 := pairCount_mono h
    have h2 : pairCount 65536 = 2147450880 := by decide
    omega

theorem toInt_small (n : Nat) (h : n ≤ 65536) : toInt (n : Int) = (n : Int) := by
  unfold toInt
  omega

theorem Rf_choose_two (n : Int) : Rf_choose n 2 = n * (n - 1) / 2 := by
  simp [Rf_choose, List.range_succ, Nat.factorial]

theorem Rf_choose_two_nat (n : Nat) : Rf_choose (n : Int) 2 = (pairCount n : Int) := by
  rw [Rf_choose_two, pairCount]
  cases n with
  | zero => simp
  | succ m =>
    have : ((m + 1 : Nat) : Int) - 1 = ((m + 1 - 1 : Nat) : Int) := by simp
    rw [this]
    norm_cast

theorem create_fits (ncols : Nat) (h : (ncols : Int) ≤ INT_MAX) :
    NumericMatrix.create 3 (ncols : Int) = Outcome.returned (frameAfter ncols []).out := by
  have h1 : doubleToInt (ncols : Int) = (ncols : Int) := by
    unfold doubleToInt
    rw [if_pos]
    unfold INT_MIN
    exact ⟨by omega, h⟩
  have h2 : ¬ ((ncols : Int) < 0) := by omega
  simp [NumericMatrix.create, h1, h2, frameAfter, cellsOf]

theorem comb2MFrame_eq (x : List Dbl) (h : (pairCount x.length : Int) ≤ INT_MAX) :
    comb2MFrame x
      = Outcome.returned (frameAfter (pairCount x.length) ((indexPairs x.length).map (columnOf x))) := by
  have hN : x.length ≤ 65536 := (pairCount_fits_iff _).1 h
  unfold comb2MFrame
  simp only [toInt_small _ hN, Rf_choose_two_nat, create_fits _ h, Outcome.returned_bind,
    Outcome.pure_eq]
  unfold outerLoop innerLoop
  rw [Int.toNat_ofNat, forLoop_nested (fun a => List.range' (a + 1) (x.length - (a + 1)))
    (fun a b => loopBody x a b)]
  have := forLoop_pairs x (pairCount x.length) h (indexPairs x.length) []
    (fun p hp => by have := mem_indexPairs _ p hp; omega)
    (by simp [indexPairs_length])
  simpa [frameAfter, indexPairs, cellsOf, writesOf] using this

theorem cellsOf_cons (c : Dbl × Dbl × Dbl) (cs : List (Dbl × Dbl × Dbl)) :
    cellsOf (c :: cs) = c.1 :: c.2.1 :: c.2.2 :: cellsOf cs := by
  simp [cellsOf]

theorem cellsOf_getD (cols : List (Dbl × Dbl × Dbl)) (j : Nat) (hj : j < cols.length) :
    ((cellsOf cols).getD (0 + 3 * j) 0, (cellsOf cols).getD (1 + 3 * j) 0,
      (cellsOf cols).getD (2 + 3 * j) 0) = cols.getD j (0, 0, 0) := by
  induction cols generalizing j with
  | nil => simp at hj
  | cons c cs ih =>
    cases j with
    | zero => simp [cellsOf_cons]
    | succ j =>
      have h := ih j (by simpa using hj)
      have e0 : 0 + 3 * (j + 1) = (0 + 3 * j) + 1 + 1 + 1 := by omega
      have e1 : 1 + 3 * (j + 1) = (1 + 3 * j) + 1 + 1 + 1 := by omega
      have e2 : 2 + 3 * (j + 1) = (2 + 3 * j) + 1 + 1 + 1 := by omega
      rw [cellsOf_cons, e0, e1, e2]
      simpa [List.getD_cons_succ] using h

theorem columns_frameAfter (cols : List (Dbl × Dbl × Dbl)) :
    (frameAfter cols.length cols).out.columns = cols := by
  apply List.ext_getElem
  · simp [NumericMatrix.columns, frameAfter]
  · intro j h1 h2
    have h := cellsOf_getD cols j h2
    simp only [NumericMatrix.columns, frameAfter, List.getElem_map, List.getElem_range,
      NumericMatrix.column, NumericMatrix.get, Nat.sub_self, Nat.mul_zero, List.replicate_zero,
      List.append_nil, h]
    simp [List.getD_eq_getElem?_getD, List.getElem?_eq_getElem h2]

theorem Dbl.abs_sub_swap (u v : Dbl) : Dbl.abs (Dbl.sub u v) = Dbl.abs (Dbl.sub v u) := by
  cases u <;> cases v <;> simp [Dbl.sub, Dbl.abs, abs_sub_comm]

theorem branchDiff_eq_abs (xa xb : Dbl) : branchDiff xa xb = Dbl.abs (Dbl.sub xb xa) := by
  cases xa <;> cases xb <;> simp [branchDiff, Dbl.gt, Dbl.sub, Dbl.abs]
  rename_i p q
  split
  · rename_i h; rw [abs_of_pos (sub_pos.2 h)]
  · rename_i h; rw [abs_of_nonpos (sub_nonpos.2 (not_lt.1 h))]; rw [neg_sub]

theorem columnOf_eq (x : List Dbl) (p : Nat × Nat) :
    columnOf x p
      = (x.getD p.1 0, x.getD p.2 0, Dbl.abs (Dbl.sub (x.getD p.2 0) (x.getD p.1 0))) := by
  simp [columnOf, branchDiff_eq_abs]

theorem map_columnOf (x : List Dbl) : (indexPairs x.length).map (columnOf x) = pairTable x := by
  simp [pairTable, columnOf_eq]

theorem pairTable_length (x : List Dbl) : (pairTable x).length = pairCount x.length := by
  simp [pairTable, indexPairs_length]

theorem comb2M_eq (x : List Dbl) (h : (pairCount x.length : Int) ≤ INT_MAX) :
    comb2M x = Outcome.returned (frameAfter (pairTable x).length (pairTable x)).out := by
  unfold comb2M
  rw [comb2MFrame_eq x h, map_columnOf, pairTable_length]
  rfl

theorem frameAfter_get (cols : List (Dbl × Dbl × Dbl)) (j : Nat) (hj : j < cols.length) :
    ((frameAfter cols.length cols).out.get 0 j, (frameAfter cols.length cols).out.get 1 j,
      (frameAfter cols.length cols).out.get 2 j) = cols.getD j (0, 0, 0) := by
  have h := cellsOf_getD cols j hj
  simpa [frameAfter, NumericMatrix.get] using h

theorem pairTable_getD (x : List Dbl) (j : Nat) (hj : j < (pairTable x).length) :
    ∃ p : Nat × Nat, (pairTable x).getD j (0, 0, 0)
      = (x.getD p.1 0, x.getD p.2 0, Dbl.abs (Dbl.sub (x.getD p.2 0) (x.getD p.1 0)))
      ∧ p.1 < p.2 ∧ p.2 < x.length := by
  have hj2 : j < (indexPairs x.length).length := by simpa [pairTable] using hj
  refine ⟨(indexPairs x.length)[j], ?_, mem_indexPairs _ _ (List.getElem_mem hj2)⟩
  simp [pairTable, List.getD_eq_getElem?_getD, List.getElem?_eq_getElem hj2]

/-! ## The claims -/

/-- C1: within the int range of the column count, comb2M returns a table of
three rows whose columns are exactly the columns (x[a], x[b], |x[b] - x[a]|)
enumerated with a ascending and, for each a, b ascending from a+1: same
columns, same order, and no cell beyond them. -/
theorem comb2M_columns_eq_pairTable (x : List Dbl)
    (h : (pairCount x.length : Int) ≤ INT_MAX) :
    ∃ out, comb2M x = Outcome.returned out ∧ out.nrow = 3
      ∧ out.data.length = 3 * out.ncol
      ∧ out.columns =
          (List.range x.length).flatMap fun a =>
            (List.range' (a + 1) (x.length - (a + 1))).map fun b =>
              (x.getD a 0, x.getD b 0, Dbl.abs (Dbl.sub (x.getD b 0) (x.getD a 0))) := by
  refine ⟨_, comb2M_eq x h, rfl, ?_, ?_⟩
  · simp [frameAfter, cellsOf_length]
  · rw [columns_frameAfter]
    simp [pairTable, indexPairs, List.map_flatMap, Function.comp_def]

/-- Witness of C1 at the input [1, 2, 3]. -/
theorem comb2M_columns_eq_pairTable_witness :
    ∃ out, comb2M [Dbl.fin 1, Dbl.fin 2, Dbl.fin 3] = Outcome.returned out ∧ out.nrow = 3
      ∧ out.data.length = 3 * out.ncol
      ∧ out.columns =
          (List.range [Dbl.fin 1, Dbl.fin 2, Dbl.fin 3].length).flatMap fun a =>
            (List.range' (a + 1) ([Dbl.fin 1, Dbl.fin 2, Dbl.fin 3].length - (a + 1))).map fun b =>
              ([Dbl.fin 1, Dbl.fin 2, Dbl.fin 3].getD a 0, [Dbl.fin 1, Dbl.fin 2, Dbl.fin 3].getD b 0,
                Dbl.abs (Dbl.sub ([Dbl.fin 1, Dbl.fin 2, Dbl.fin 3].getD b 0)
                  ([Dbl.fin 1, Dbl.fin 2, Dbl.fin 3].getD a 0))) :=
  comb2M_columns_eq_pairTable [Dbl.fin 1, Dbl.fin 2, Dbl.fin 3] (by decide)

theorem writesOf_length (k n : Nat) : (writesOf k n).length = 3 * n := by
  induction n generalizing k with
  | zero => simp [writesOf]
  | succ n ih =>
    have h := ih (k + 1)
    simp only [writesOf, List.range'_succ, List.flatMap_cons, List.length_append] at h ⊢
    simp only [h, List.length_cons, List.length_nil]
    omega

theorem fits_of_le (n : Nat) (h : n ≤ 65536) : (pairCount n : Int) ≤ INT_MAX :=
  (pairCount_fits_iff n).2 h

/-- C2: within the int range of the column count, the table comb2M returns has
exactly N*(N-1)/2 columns for an input of length N; this is the count
allocated from Rf_choose(xlen, 2), the binomial coefficient C(N,2), and it
equals the number of columns the double loop has written (the final counter,
three cells a column). -/
theorem comb2M_ncol_eq_pairCount (x : List Dbl) (h : (pairCount x.length : Int) ≤ INT_MAX) :
    ∃ s, comb2MFrame x = Outcome.returned s ∧ comb2M x = Outcome.returned s.out
      ∧ s.out.ncol = x.length * (x.length - 1) / 2
      ∧ s.out.ncol = x.length.choose 2
      ∧ (s.out.ncol : Int) = Rf_choose (toInt (x.length : Int)) 2
      ∧ s.counter = (s.out.ncol : Int)
      ∧ s.writes.length = 3 * s.out.ncol := by
  have hN : x.length ≤ 65536 := (pairCount_fits_iff _).1 h
  refine ⟨_, comb2MFrame_eq x h, ?_, rfl, ?_, ?_, ?_, ?_⟩
  · unfold comb2M; rw [comb2MFrame_eq x h]; rfl
  · simp [frameAfter, Nat.choose_two_right, pairCount]
  · simp [frameAfter, toInt_small _ hN, Rf_choose_two_nat]
  · simp [frameAfter, indexPairs_length]
  · simp [frameAfter, indexPairs_length, writesOf_length]

/-- Witness of C2 at the input [4, 9, 2, 7]. -/
theorem comb2M_ncol_eq_pairCount_witness :
    ∃ s, comb2MFrame [Dbl.fin 4, Dbl.fin 9, Dbl.fin 2, Dbl.fin 7] = Outcome.returned s
      ∧ comb2M [Dbl.fin 4, Dbl.fin 9, Dbl.fin 2, Dbl.fin 7] = Outcome.returned s.out
      ∧ s.out.ncol = [Dbl.fin 4, Dbl.fin 9, Dbl.fin 2, Dbl.fin 7].length
          * ([Dbl.fin 4, Dbl.fin 9, Dbl.fin 2, Dbl.fin 7].length - 1) / 2
      ∧ s.out.ncol = [Dbl.fin 4, Dbl.fin 9, Dbl.fin 2, Dbl.fin 7].length.choose 2
      ∧ (s.out.ncol : Int)
          = Rf_choose (toInt ([Dbl.fin 4, Dbl.fin 9, Dbl.fin 2, Dbl.fin 7].length : Int)) 2
      ∧ s.counter = (s.out.ncol : Int)
      ∧ s.writes.length = 3 * s.out.ncol :=
  comb2M_ncol_eq_pairCount [Dbl.fin 4, Dbl.fin 9, Dbl.fin 2, Dbl.fin 7] (by decide)

/-- C4: for the empty input and for every one-element input comb2M returns
(no error, no undefined behaviour) a table of three rows and 0 columns. -/
theorem comb2M_empty_and_singleton :
    comb2M [] = Outcome.returned ⟨3, 0, []⟩
      ∧ ∀ v : Dbl, comb2M [v] = Outcome.returned ⟨3, 0, []⟩ := by
  constructor
  · rw [comb2M_eq [] (by decide)]
    simp [frameAfter, pairTable, indexPairs, cellsOf]
  · intro v
    rw [comb2M_eq [v] (fits_of_le _ (by simp))]
    simp [frameAfter, pairTable, indexPairs, cellsOf, List.range_succ]

theorem Outcome.bind_eq {σ τ : Type} (o : Outcome σ) (f : σ → Outcome τ) :
    (o >>= f) = o.bind f := rfl

theorem overflow_iff (n : Nat) : INT_MAX < (pairCount n : Int) ↔ 65536 < n := by
  rw [← not_le, pairCount_fits_iff, not_le]

theorem toInt_of_le (n : Nat) (h : (n : Int) ≤ INT_MAX) : toInt (n : Int) = (n : Int) := by
  unfold INT_MAX at h
  unfold toInt
  omega

theorem comb2M_returns (x : List Dbl) (h : (pairCount x.length : Int) ≤ INT_MAX) :
    ∃ out, comb2M x = Outcome.returned out := ⟨_, comb2M_eq x h⟩

theorem mem_writesOf (n : Nat) (w : Nat × Int) :
    w ∈ writesOf 0 n ↔ ∃ c : Nat, c < n ∧ (w = (0, (c : Int)) ∨ w = (1, (c : Int)) ∨ w = (2, (c : Int))) := by
  simp [writesOf, List.mem_flatMap, List.mem_range'_1]

theorem count_writesOf (n c i : Nat) (hc : c < n) (hi : i < 3) :
    (writesOf 0 n).count (i, (c : Int)) = 1 := by
  induction n with
  | zero => omega
  | succ n ih =>
    rw [writesOf_succ, List.count_append]
    rcases Nat.lt_succ_iff_lt_or_eq.1 hc with h | h
    · rw [ih h]
      have : ([(0, (n : Int)), (1, (n : Int)), (2, (n : Int))] : List (Nat × Int)).count (i, (c : Int)) = 0 := by
        rw [List.count_eq_zero]
        simp
        omega
      omega
    · subst h
      have h0 : (writesOf 0 c).count (i, (c : Int)) = 0 := by
        rw [List.count_eq_zero, mem_writesOf]
        rintro ⟨d, hd, h | h | h⟩ <;> simp at h <;> omega
      rw [h0]
      interval_cases i <;> simp [List.count_cons]

/-- C6: when the pair count N*(N-1)/2 fits int, the call returns (no error, no
undefined behaviour), the counter on return equals N*(N-1)/2 = ncol, the
cells written are, in order, (0,c), (1,c), (2,c) for c = 0 .. N*(N-1)/2 - 1:
every write targets a column 0 <= c < N*(N-1)/2, every cell of every column
in that range is written exactly once, and the matrix has 3 * ncol cells. -/
theorem comb2M_writes_in_bounds (x : List Dbl) (h : (pairCount x.length : Int) ≤ INT_MAX) :
    ∃ s, comb2MFrame x = Outcome.returned s ∧ comb2M x = Outcome.returned s.out
      ∧ s.counter = ((x.length * (x.length - 1) / 2 : Nat) : Int)
      ∧ s.out.ncol = x.length * (x.length - 1) / 2
      ∧ s.out.data.length = 3 * s.out.ncol
      ∧ s.writes = (List.range s.out.ncol).flatMap
          (fun c => [(0, (c : Int)), (1, (c : Int)), (2, (c : Int))])
      ∧ (∀ w ∈ s.writes, w.1 < 3 ∧ 0 ≤ w.2 ∧ w.2 < (s.out.ncol : Int))
      ∧ (∀ c i : Nat, c < s.out.ncol → i < 3 → s.writes.count (i, (c : Int)) = 1) := by
  refine ⟨_, comb2MFrame_eq x h, ?_, ?_, ?_, ?_, ?_, ?_, ?_⟩
  · unfold comb2M; rw [comb2MFrame_eq x h]; rfl
  · simp [frameAfter, indexPairs_length, pairCount]
  · simp [frameAfter, pairCount]
  · simp [frameAfter, cellsOf_length, indexPairs_length]
  · simp [frameAfter, indexPairs_length, writesOf, List.range_eq_range']
  · intro w hw
    simp only [frameAfter, List.length_map, indexPairs_length] at hw ⊢
    obtain ⟨c, hc, h | h | h⟩ := (mem_writesOf _ _).1 hw <;> subst h <;> simp <;> omega
  · intro c i hc hi
    simp only [frameAfter, List.length_map, indexPairs_length] at hc ⊢
    exact count_writesOf _ c i hc hi

/-- Witness of C6 at the input [2, 7, 1, 8]. -/
theorem comb2M_writes_in_bounds_witness :
    ∃ s, comb2MFrame [Dbl.fin 2, Dbl.fin 7, Dbl.fin 1, Dbl.fin 8] = Outcome.returned s
      ∧ comb2M [Dbl.fin 2, Dbl.fin 7, Dbl.fin 1, Dbl.fin 8] = Outcome.returned s.out
      ∧ s.counter = (([Dbl.fin 2, Dbl.fin 7, Dbl.fin 1, Dbl.fin 8].length
          * ([Dbl.fin 2, Dbl.fin 7, Dbl.fin 1, Dbl.fin 8].length - 1) / 2 : Nat) : Int)
      ∧ s.out.ncol = [Dbl.fin 2, Dbl.fin 7, Dbl.fin 1, Dbl.fin 8].length
          * ([Dbl.fin 2, Dbl.fin 7, Dbl.fin 1, Dbl.fin 8].length - 1) / 2
      ∧ s.out.data.length = 3 * s.out.ncol
      ∧ s.writes = (List.range s.out.ncol).flatMap
          (fun c => [(0, (c : Int)), (1, (c : Int)), (2, (c : Int))])
      ∧ (∀ w ∈ s.writes, w.1 < 3 ∧ 0 ≤ w.2 ∧ w.2 < (s.out.ncol : Int))
      ∧ (∀ c i : Nat, c < s.out.ncol → i < 3 → s.writes.count (i, (c : Int)) = 1) :=
  comb2M_writes_in_bounds [Dbl.fin 2, Dbl.fin 7, Dbl.fin 1, Dbl.fin 8] (by decide)

/-- C7: for the input [1, 2, 3] comb2M returns the 3 x 3 matrix whose columns
are (1,2,1), (1,3,2), (2,3,1), in that order. -/
theorem comb2M_one_two_three :
    comb2M [Dbl.fin 1, Dbl.fin 2, Dbl.fin 3]
        = Outcome.returned ⟨3, 3, [Dbl.fin 1, Dbl.fin 2, Dbl.fin 1, Dbl.fin 1, Dbl.fin 3,
            Dbl.fin 2, Dbl.fin 2, Dbl.fin 3, Dbl.fin 1]⟩
      ∧ NumericMatrix.columns ⟨3, 3, [Dbl.fin 1, Dbl.fin 2, Dbl.fin 1, Dbl.fin 1, Dbl.fin 3,
            Dbl.fin 2, Dbl.fin 2, Dbl.fin 3, Dbl.fin 1]⟩
        = [(Dbl.fin 1, Dbl.fin 2, Dbl.fin 1), (Dbl.fin 1, Dbl.fin 3, Dbl.fin 2),
            (Dbl.fin 2, Dbl.fin 3, Dbl.fin 1)] := by
  constructor
  · have hp : indexPairs 3 = [(0, 1), (0, 2), (1, 2)] := by decide
    rw [comb2M_eq _ (by decide)]
    simp only [frameAfter, pairTable, List.length_cons, List.length_nil, hp, List.map_cons,
      List.map_nil, cellsOf, List.flatMap_cons, List.flatMap_nil, List.getD_cons_zero,
      List.getD_cons_succ, Dbl.sub, Dbl.abs]
    norm_num
  · simp [NumericMatrix.columns, NumericMatrix.column, NumericMatrix.get, List.range_succ]

/-- C8: for the input [5, 1] comb2M returns the 3 x 1 matrix whose single
column is (5,1,4): rows 0 and 1 in input order, row 2 the non-negative
difference. -/
theorem comb2M_five_one :
    comb2M [Dbl.fin 5, Dbl.fin 1] = Outcome.returned ⟨3, 1, [Dbl.fin 5, Dbl.fin 1, Dbl.fin 4]⟩
      ∧ NumericMatrix.columns ⟨3, 1, [Dbl.fin 5, Dbl.fin 1, Dbl.fin 4]⟩
        = [(Dbl.fin 5, Dbl.fin 1, Dbl.fin 4)] := by
  constructor
  · have hp : indexPairs 2 = [(0, 1)] := by decide
    rw [comb2M_eq _ (by decide)]
    simp only [frameAfter, pairTable, List.length_cons, List.length_nil, hp, List.map_cons,
      List.map_nil, cellsOf, List.flatMap_cons, List.flatMap_nil, List.getD_cons_zero,
      List.getD_cons_succ, Dbl.sub, Dbl.abs]
    norm_num
  · simp [NumericMatrix.columns, NumericMatrix.column, NumericMatrix.get, List.range_succ]

theorem getD_mem (x : List Dbl) (a : Nat) (h : a < x.length) : x.getD a 0 ∈ x := by
  rw [List.getD_eq_getElem?_getD, List.getElem?_eq_getElem h]
  exact List.getElem_mem h

/-- C9 as stated fails: the elements of [Inf, Inf, Inf] are all equal, and
comb2M returns three columns whose row 2 is NaN, not 0. -/
theorem comb2M_equal_infinities :
    comb2M [Dbl.posInf, Dbl.posInf, Dbl.posInf]
        = Outcome.returned ⟨3, 3, [Dbl.posInf, Dbl.posInf, Dbl.nan, Dbl.posInf, Dbl.posInf,
            Dbl.nan, Dbl.posInf, Dbl.posInf, Dbl.nan]⟩
      ∧ NumericMatrix.get ⟨3, 3, [Dbl.posInf, Dbl.posInf, Dbl.nan, Dbl.posInf, Dbl.posInf,
            Dbl.nan, Dbl.posInf, Dbl.posInf, Dbl.nan]⟩ 2 0 ≠ 0 := by
  constructor
  · have hp : indexPairs 3 = [(0, 1), (0, 2), (1, 2)] := by decide
    rw [comb2M_eq _ (by decide)]
    simp only [frameAfter, pairTable, List.length_cons, List.length_nil, hp, List.map_cons,
      List.map_nil, cellsOf, List.flatMap_cons, List.flatMap_nil, List.getD_cons_zero,
      List.getD_cons_succ, Dbl.sub, Dbl.abs]
    norm_num
  · simp only [NumericMatrix.get]
    intro h
    have h2 : (Dbl.nan : Dbl) = Dbl.fin 0 := h
    exact Dbl.noConfusion h2

/-- C9, amended: when the pair count fits int and all elements of the input
are equal to one finite value, comb2M returns a table of N*(N-1)/2 columns
(three for [3, 3, 3]) and every column has row2 = 0. -/
theorem comb2M_equal_finite (x : List Dbl) (q : ℚ) (h : (pairCount x.length : Int) ≤ INT_MAX)
    (hall : ∀ v ∈ x, v = Dbl.fin q) :
    ∃ out, comb2M x = Outcome.returned out ∧ out.ncol = x.length * (x.length - 1) / 2
      ∧ ∀ i, i < out.ncol → out.get 2 i = Dbl.fin 0 := by
  refine ⟨_, comb2M_eq x h, ?_, ?_⟩
  · simp [frameAfter, pairTable_length, pairCount]
  · intro i hi
    have hi2 : i < (pairTable x).length := hi
    have hg := frameAfter_get (pairTable x) i hi2
    obtain ⟨p, hp, h12, h2⟩ := pairTable_getD x i hi2
    rw [hp] at hg
    simp only [Prod.mk.injEq] at hg
    rw [hg.2.2, hall _ (getD_mem x p.1 (by omega)), hall _ (getD_mem x p.2 h2)]
    simp [Dbl.sub, Dbl.abs]

/-- Witness of C9 (amended) at the input [3, 3, 3]. -/
theorem comb2M_equal_finite_witness :
    ∃ out, comb2M [Dbl.fin 3, Dbl.fin 3, Dbl.fin 3] = Outcome.returned out
      ∧ out.ncol = [Dbl.fin 3, Dbl.fin 3, Dbl.fin 3].length
          * ([Dbl.fin 3, Dbl.fin 3, Dbl.fin 3].length - 1) / 2
      ∧ ∀ i, i < out.ncol → out.get 2 i = Dbl.fin 0 :=
  comb2M_equal_finite [Dbl.fin 3, Dbl.fin 3, Dbl.fin 3] 3 (by decide) (by simp)

theorem loopBody_eq_loopBodyAbs (x : List Dbl) (a b : Nat) (s : Frame) :
    loopBody x a b s = loopBodyAbs x a b s := by
  unfold loopBody loopBodyAbs
  simp only [Outcome.bind_eq]
  cases ha : readAt x a with
  | raised => rfl
  | undefined u => rfl
  | returned va =>
    simp only [Outcome.bind]
    cases s.assign 0 va with
    | raised => rfl
    | undefined u => rfl
    | returned s1 =>
      simp only [Outcome.bind]
      cases hb : readAt x b with
      | raised => rfl
      | undefined u => rfl
      | returned vb =>
        simp only [Outcome.bind]
        cases s1.assign 1 vb with
        | raised => rfl
        | undefined u => rfl
        | returned s2 =>
          simp only [Outcome.bind]
          have key := branchDiff_eq_abs va vb
          unfold branchDiff at key
          by_cases hgt : Dbl.gt vb va = true
          · rw [if_pos hgt] at key ⊢
            rw [← key]
          · rw [if_neg hgt] at key ⊢
            rw [← key]

theorem innerLoop_eq_innerLoopAbs (x : List Dbl) (xlen : Int) :
    innerLoop x xlen = innerLoopAbs x xlen := by
  funext a s
  have hb : loopBody x a = loopBodyAbs x a := by
    funext b t; exact loopBody_eq_loopBodyAbs x a b t
  unfold innerLoop innerLoopAbs
  rw [hb]

theorem comb2M_eq_comb2MAbs_all (x : List Dbl) : comb2M x = comb2MAbs x := by
  have ho : ∀ xlen, outerLoop x xlen = outerLoopAbs x xlen := by
    intro xlen; funext s
    unfold outerLoop outerLoopAbs
    rw [innerLoop_eq_innerLoopAbs]
  have hf : comb2MFrame x = comb2MAbsFrame x := by
    unfold comb2MFrame comb2MAbsFrame
    simp only [ho]
  unfold comb2M comb2MAbs
  rw [hf]

/-- C10: for every input of finite values, comb2M (difference by comparison)
and the variant writing |x[b] - x[a]| with the absolute-value primitive have
the same outcome, and when the pair count fits int both return the same
table. -/
theorem comb2M_eq_comb2MAbs (x : List Dbl) (_hfin : ∀ v ∈ x, Dbl.isFinite v = true) :
    comb2M x = comb2MAbs x
      ∧ ((pairCount x.length : Int) ≤ INT_MAX →
          ∃ out, comb2M x = Outcome.returned out ∧ comb2MAbs x = Outcome.returned out) := by
  have he := comb2M_eq_comb2MAbs_all x
  refine ⟨he, fun h => ?_⟩
  obtain ⟨out, ho⟩ := comb2M_returns x h
  refine ⟨out, ho, ?_⟩
  rw [← he]
  exact ho

/-- Witness of C10 at the input [5, 1, 3]. -/
theorem comb2M_eq_comb2MAbs_witness :
    comb2M [Dbl.fin 5, Dbl.fin 1, Dbl.fin 3] = comb2MAbs [Dbl.fin 5, Dbl.fin 1, Dbl.fin 3]
      ∧ ∃ out, comb2M [Dbl.fin 5, Dbl.fin 1, Dbl.fin 3] = Outcome.returned out
          ∧ comb2MAbs [Dbl.fin 5, Dbl.fin 1, Dbl.fin 3] = Outcome.returned out :=
  ⟨(comb2M_eq_comb2MAbs [Dbl.fin 5, Dbl.fin 1, Dbl.fin 3] (by simp [Dbl.isFinite])).1,
    (comb2M_eq_comb2MAbs [Dbl.fin 5, Dbl.fin 1, Dbl.fin 3] (by simp [Dbl.isFinite])).2
      (by decide)⟩

/-- C11: the output is not invariant under reordering of the input: [1, 5] is
a permutation of [5, 1], comb2M returns the column (5,1,4) for the one and
(1,5,4) for the other, the two tables differ, and each is the table of
pairwise differences of its own sequence. -/
theorem comb2M_order_sensitive :
    List.Perm [Dbl.fin 5, Dbl.fin 1] [Dbl.fin 1, Dbl.fin 5]
      ∧ comb2M [Dbl.fin 5, Dbl.fin 1]
          = Outcome.returned ⟨3, 1, [Dbl.fin 5, Dbl.fin 1, Dbl.fin 4]⟩
      ∧ comb2M [Dbl.fin 1, Dbl.fin 5]
          = Outcome.returned ⟨3, 1, [Dbl.fin 1, Dbl.fin 5, Dbl.fin 4]⟩
      ∧ comb2M [Dbl.fin 5, Dbl.fin 1] ≠ comb2M [Dbl.fin 1, Dbl.fin 5]
      ∧ NumericMatrix.columns ⟨3, 1, [Dbl.fin 5, Dbl.fin 1, Dbl.fin 4]⟩
          = pairTable [Dbl.fin 5, Dbl.fin 1]
      ∧ NumericMatrix.columns ⟨3, 1, [Dbl.fin 1, Dbl.fin 5, Dbl.fin 4]⟩
          = pairTable [Dbl.fin 1, Dbl.fin 5] := by
  have hp : indexPairs 2 = [(0, 1)] := by decide
  have h1 : comb2M [Dbl.fin 5, Dbl.fin 1]
      = Outcome.returned ⟨3, 1, [Dbl.fin 5, Dbl.fin 1, Dbl.fin 4]⟩ := by
    rw [comb2M_eq _ (by decide)]
    simp only [frameAfter, pairTable, List.length_cons, List.length_nil, hp, List.map_cons,
      List.map_nil, cellsOf, List.flatMap_cons, List.flatMap_nil, List.getD_cons_zero,
      List.getD_cons_succ, Dbl.sub, Dbl.abs]
    norm_num
  have h2 : comb2M [Dbl.fin 1, Dbl.fin 5]
      = Outcome.returned ⟨3, 1, [Dbl.fin 1, Dbl.fin 5, Dbl.fin 4]⟩ := by
    rw [comb2M_eq _ (by decide)]
    simp only [frameAfter, pairTable, List.length_cons, List.length_nil, hp, List.map_cons,
      List.map_nil, cellsOf, List.flatMap_cons, List.flatMap_nil, List.getD_cons_zero,
      List.getD_cons_succ, Dbl.sub, Dbl.abs]
    norm_num
  refine ⟨List.Perm.swap _ _ _, h1, h2, ?_, ?_, ?_⟩
  · rw [h1, h2]
    intro h
    simp only [Outcome.returned.injEq, NumericMatrix.mk.injEq, List.cons.injEq, Dbl.fin.injEq] at h
    norm_num at h
  · have e : pairTable [Dbl.fin 5, Dbl.fin 1] = [(Dbl.fin 5, Dbl.fin 1, Dbl.fin 4)] := by
      simp only [pairTable, List.length_cons, List.length_nil, hp, List.map_cons, List.map_nil,
        List.getD_cons_zero, List.getD_cons_succ, Dbl.sub, Dbl.abs]
      norm_num
    rw [e]
    simp [NumericMatrix.columns, NumericMatrix.column, NumericMatrix.get, List.range_succ]
  · have e : pairTable [Dbl.fin 1, Dbl.fin 5] = [(Dbl.fin 1, Dbl.fin 5, Dbl.fin 4)] := by
      simp only [pairTable, List.length_cons, List.length_nil, hp, List.map_cons, List.map_nil,
        List.getD_cons_zero, List.getD_cons_succ, Dbl.sub, Dbl.abs]
      norm_num
    rw [e]
    simp [NumericMatrix.columns, NumericMatrix.column, NumericMatrix.get, List.range_succ]

theorem toInt_of_range (z : Int) (h0 : 0 ≤ z) (h1 : z ≤ INT_MAX) : toInt z = z := by
  unfold INT_MAX at h1
  unfold toInt
  omega

theorem pairCount_65537 : pairCount 65537 = 2147516416 := by decide

/-- C16: INT_MAX is 2^31 - 1; for every length N <= 65536 the pair count
N*(N-1)/2 is at most INT_MAX and narrowing it to int leaves it unchanged;
65536 is the largest such length, the pair count of 65537 being 2147516416 >
INT_MAX; and for an input of length at most 65536 the column count, the final
counter and every counter value used in a write lie in 0 .. INT_MAX and are
unchanged by narrowing to int (no wrap-around). -/
theorem pairCount_int_range :
    INT_MAX = 2 ^ 31 - 1
      ∧ (∀ n : Nat, n ≤ 65536 →
          (pairCount n : Int) ≤ INT_MAX ∧ toInt (pairCount n : Int) = (pairCount n : Int))
      ∧ pairCount 65537 = 2147516416
      ∧ INT_MAX < (pairCount 65537 : Int)
      ∧ (∀ n : Nat, (pairCount n : Int) ≤ INT_MAX → n ≤ 65536)
      ∧ (∀ x : List Dbl, x.length ≤ 65536 →
          ∃ s, comb2MFrame x = Outcome.returned s
            ∧ (s.out.ncol : Int) = (pairCount x.length : Int)
            ∧ s.counter = (pairCount x.length : Int)
            ∧ s.counter ≤ INT_MAX ∧ toInt s.counter = s.counter
            ∧ ∀ w ∈ s.writes, 0 ≤ w.2 ∧ w.2 ≤ INT_MAX ∧ toInt w.2 = w.2) := by
  refine ⟨by unfold INT_MAX; norm_num, ?_, pairCount_65537, ?_, ?_, ?_⟩
  · intro n hn
    have h := fits_of_le n hn
    exact ⟨h, toInt_of_le _ h⟩
  · rw [overflow_iff]; decide
  · intro n h
    exact (pairCount_fits_iff n).1 h
  · intro x hx
    have h := fits_of_le _ hx
    refine ⟨_, comb2MFrame_eq x h, ?_, ?_, ?_, ?_, ?_⟩
    · simp [frameAfter]
    · simp [frameAfter, indexPairs_length]
    · simpa [frameAfter, indexPairs_length] using h
    · apply toInt_of_range
      · simp [frameAfter]
      · simpa [frameAfter, indexPairs_length] using h
    · intro w hw
      simp only [frameAfter, List.length_map, indexPairs_length] at hw
      obtain ⟨c, hc, hw⟩ := (mem_writesOf _ _).1 hw
      have h2 : w.2 = (c : Int) := by
        rcases hw with hw | hw | hw <;> rw [hw]
      have h3 : (c : Int) ≤ INT_MAX := le_trans (by exact_mod_cast hc.le) h
      rw [h2]
      exact ⟨by omega, h3, toInt_of_range _ (by omega) h3⟩

/-- Witness of C16 at the length 4 and the input [2, 7, 1, 8]. -/
theorem pairCount_int_range_witness :
    ((pairCount 4 : Int) ≤ INT_MAX ∧ toInt (pairCount 4 : Int) = (pairCount 4 : Int))
      ∧ ∃ s, comb2MFrame [Dbl.fin 2, Dbl.fin 7, Dbl.fin 1, Dbl.fin 8] = Outcome.returned s
            ∧ (s.out.ncol : Int) = (pairCount [Dbl.fin 2, Dbl.fin 7, Dbl.fin 1, Dbl.fin 8].length : Int)
            ∧ s.counter = (pairCount [Dbl.fin 2, Dbl.fin 7, Dbl.fin 1, Dbl.fin 8].length : Int)
            ∧ s.counter ≤ INT_MAX ∧ toInt s.counter = s.counter
            ∧ ∀ w ∈ s.writes, 0 ≤ w.2 ∧ w.2 ≤ INT_MAX ∧ toInt w.2 = w.2 :=
  ⟨pairCount_int_range.2.1 4 (by decide),
    pairCount_int_range.2.2.2.2.2 [Dbl.fin 2, Dbl.fin 7, Dbl.fin 1, Dbl.fin 8] (by decide)⟩

theorem Dbl.abs_sub_nonneg (u v : Dbl) (hu : Dbl.isNaN u = false) (hv : Dbl.isNaN v = false)
    (hne : ¬ (u = v ∧ Dbl.isFinite u = false)) :
    Dbl.nonneg (Dbl.abs (Dbl.sub v u)) = true
      ∧ (Dbl.abs (Dbl.sub v u) = Dbl.fin 0 ↔ u = v) := by
  cases u <;> cases v <;>
    simp [Dbl.isNaN, Dbl.isFinite, Dbl.sub, Dbl.abs, Dbl.nonneg] at hu hv hne ⊢
  rename_i p q
  rw [sub_eq_zero]
  exact eq_comm

/-- C17 as stated fails: [Inf, Inf] has no NaN, and comb2M returns the column
(Inf, Inf, NaN): row2 is NaN, which is neither >= 0 nor 0, although row0 =
row1. -/
theorem comb2M_row2_nan_without_nan_input :
    (∀ v ∈ [Dbl.posInf, Dbl.posInf], Dbl.isNaN v = false)
      ∧ comb2M [Dbl.posInf, Dbl.posInf]
          = Outcome.returned ⟨3, 1, [Dbl.posInf, Dbl.posInf, Dbl.nan]⟩
      ∧ NumericMatrix.get ⟨3, 1, [Dbl.posInf, Dbl.posInf, Dbl.nan]⟩ 0 0
          = NumericMatrix.get ⟨3, 1, [Dbl.posInf, Dbl.posInf, Dbl.nan]⟩ 1 0
      ∧ Dbl.nonneg (NumericMatrix.get ⟨3, 1, [Dbl.posInf, Dbl.posInf, Dbl.nan]⟩ 2 0) = false
      ∧ NumericMatrix.get ⟨3, 1, [Dbl.posInf, Dbl.posInf, Dbl.nan]⟩ 2 0 ≠ Dbl.fin 0 := by
  have hp : indexPairs 2 = [(0, 1)] := by decide
  refine ⟨by simp [Dbl.isNaN], ?_, by simp [NumericMatrix.get],
    by simp [NumericMatrix.get, Dbl.nonneg], by simp [NumericMatrix.get]⟩
  rw [comb2M_eq _ (by decide)]
  simp only [frameAfter, pairTable, List.length_cons, List.length_nil, hp, List.map_cons,
    List.map_nil, cellsOf, List.flatMap_cons, List.flatMap_nil, List.getD_cons_zero,
    List.getD_cons_succ, Dbl.sub, Dbl.abs]
  norm_num

/-- C17, amended: when the pair count fits int and the input has no NaN,
every column i whose row0 and row1 are not one and the same infinity has
row2[i] >= 0, with row2[i] = 0 exactly when row0[i] = row1[i]; for an input
of finite values this is every column. -/
theorem comb2M_row2_nonneg (x : List Dbl) (h : (pairCount x.length : Int) ≤ INT_MAX)
    (hnan : ∀ v ∈ x, Dbl.isNaN v = false) :
    ∃ out, comb2M x = Outcome.returned out
      ∧ (∀ i, i < out.ncol →
          ¬ (out.get 0 i = out.get 1 i ∧ Dbl.isFinite (out.get 0 i) = false) →
          Dbl.nonneg (out.get 2 i) = true
            ∧ (out.get 2 i = Dbl.fin 0 ↔ out.get 0 i = out.get 1 i))
      ∧ ((∀ v ∈ x, Dbl.isFinite v = true) → ∀ i, i < out.ncol →
          Dbl.nonneg (out.get 2 i) = true
            ∧ (out.get 2 i = Dbl.fin 0 ↔ out.get 0 i = out.get 1 i)) := by
  have key : ∀ i, i < (frameAfter (pairTable x).length (pairTable x)).out.ncol →
      ∃ p : Nat × Nat, p.1 < x.length ∧ p.2 < x.length
        ∧ (frameAfter (pairTable x).length (pairTable x)).out.get 0 i = x.getD p.1 0
        ∧ (frameAfter (pairTable x).length (pairTable x)).out.get 1 i = x.getD p.2 0
        ∧ (frameAfter (pairTable x).length (pairTable x)).out.get 2 i
            = Dbl.abs (Dbl.sub (x.getD p.2 0) (x.getD p.1 0)) := by
    intro i hi
    have hi2 : i < (pairTable x).length := hi
    have hg := frameAfter_get (pairTable x) i hi2
    obtain ⟨p, hp, h12, h2⟩ := pairTable_getD x i hi2
    rw [hp] at hg
    simp only [Prod.mk.injEq] at hg
    exact ⟨p, by omega, h2, hg.1, hg.2.1, hg.2.2⟩
  refine ⟨_, comb2M_eq x h, ?_, ?_⟩
  · intro i hi hne
    obtain ⟨p, h1, h2, e0, e1, e2⟩ := key i hi
    rw [e0, e1] at hne
    rw [e0, e1, e2]
    exact Dbl.abs_sub_nonneg _ _ (hnan _ (getD_mem x p.1 h1)) (hnan _ (getD_mem x p.2 h2)) hne
  · intro hfin i hi
    obtain ⟨p, h1, h2, e0, e1, e2⟩ := key i hi
    rw [e0, e1, e2]
    refine Dbl.abs_sub_nonneg _ _ (hnan _ (getD_mem x p.1 h1)) (hnan _ (getD_mem x p.2 h2)) ?_
    intro hc
    have := hfin _ (getD_mem x p.1 h1)
    rw [hc.2] at this
    exact Bool.noConfusion this

/-- Witness of C17 (amended) at the input [5, 1, 3, 5]. -/
theorem comb2M_row2_nonneg_witness :
    ∃ out, comb2M [Dbl.fin 5, Dbl.fin 1, Dbl.fin 3, Dbl.fin 5] = Outcome.returned out
      ∧ ∀ i, i < out.ncol →
          Dbl.nonneg (out.get 2 i) = true
            ∧ (out.get 2 i = Dbl.fin 0 ↔ out.get 0 i = out.get 1 i) := by
  obtain ⟨out, ho, -, h2⟩ := comb2M_row2_nonneg [Dbl.fin 5, Dbl.fin 1, Dbl.fin 3, Dbl.fin 5]
    (by decide) (by simp [Dbl.isNaN])
  exact ⟨out, ho, h2 (by simp [Dbl.isFinite])⟩

theorem range'_succ_map (s n : Nat) :
    List.range' (s + 1) n = (List.range' s n).map Nat.succ := by
  have h := List.map_add_range' 1 s n 1
  rw [Nat.add_comm 1 s] at h
  rw [← h]
  apply List.map_congr_left
  intro a _
  omega

theorem indexPairs_succ (n : Nat) :
    indexPairs (n + 1)
      = (List.range' 1 n).map (fun b => (0, b))
          ++ (indexPairs n).map (fun p => (p.1 + 1, p.2 + 1)) := by
  unfold indexPairs
  rw [List.range_succ_eq_map, List.flatMap_cons, List.flatMap_map, List.map_flatMap]
  congr 1
  apply List.flatMap_congr
  intro a _
  have e : n + 1 - (Nat.succ a + 1) = n - (a + 1) := by omega
  rw [e, range'_succ_map (a + 1), List.map_map, List.map_map]
  rfl

theorem map_range_getD (xs : List Dbl) (F : Dbl → Dbl × Dbl × Dbl) :
    (List.range xs.length).map (fun i => F (xs.getD i 0)) = xs.map F := by
  apply List.ext_getElem
  · simp
  · intro i h1 h2
    have h3 : i < xs.length := by simpa using h2
    simp [List.getD_eq_getElem?_getD, List.getElem?_eq_getElem h3]

theorem pairTable_cons (v : Dbl) (xs : List Dbl) :
    pairTable (v :: xs)
      = xs.map (fun u => (v, u, Dbl.abs (Dbl.sub u v))) ++ pairTable xs := by
  unfold pairTable
  rw [List.length_cons, indexPairs_succ, List.map_append, List.map_map, List.map_map]
  congr 1
  · rw [List.range'_eq_map_range, List.map_map,
      ← map_range_getD xs (fun u => (v, u, Dbl.abs (Dbl.sub u v)))]
    apply List.map_congr_left
    intro i _
    simp [Nat.add_comm 1 i]

/-- C14: when the pair count of the longer sequence fits int, comb2M returns a
table for v followed by xs and a table for xs, and the columns of the first
are the columns (v, xs[j], |xs[j] - v|) for j ascending over xs followed by
the columns of the second: the table of the tail is the suffix left after the
first length(xs) columns. -/
theorem comb2M_cons (v : Dbl) (xs : List Dbl)
    (h : (pairCount (v :: xs).length : Int) ≤ INT_MAX) :
    ∃ out tail, comb2M (v :: xs) = Outcome.returned out
      ∧ comb2M xs = Outcome.returned tail
      ∧ out.columns = xs.map (fun u => (v, u, Dbl.abs (Dbl.sub u v))) ++ tail.columns
      ∧ out.ncol = xs.length + tail.ncol
      ∧ out.columns.drop xs.length = tail.columns := by
  have hN : (v :: xs).length ≤ 65536 := (pairCount_fits_iff _).1 h
  have h2 : (pairCount xs.length : Int) ≤ INT_MAX :=
    fits_of_le _ (by simp at hN; omega)
  have e : (frameAfter (pairTable (v :: xs)).length (pairTable (v :: xs))).out.columns
      = xs.map (fun u => (v, u, Dbl.abs (Dbl.sub u v)))
          ++ (frameAfter (pairTable xs).length (pairTable xs)).out.columns := by
    rw [columns_frameAfter, columns_frameAfter, pairTable_cons]
  refine ⟨_, _, comb2M_eq _ h, comb2M_eq _ h2, e, ?_, ?_⟩
  · simp [frameAfter, pairTable_cons]
  · rw [e]
    have hl : (xs.map (fun u => (v, u, Dbl.abs (Dbl.sub u v)))).length = xs.length := by simp
    rw [← hl, List.drop_left]

/-- Witness of C14 at the value 6 and the sequence [2, 9]. -/
theorem comb2M_cons_witness :
    ∃ out tail, comb2M (Dbl.fin 6 :: [Dbl.fin 2, Dbl.fin 9]) = Outcome.returned out
      ∧ comb2M [Dbl.fin 2, Dbl.fin 9] = Outcome.returned tail
      ∧ out.columns = [Dbl.fin 2, Dbl.fin 9].map
          (fun u => (Dbl.fin 6, u, Dbl.abs (Dbl.sub u (Dbl.fin 6)))) ++ tail.columns
      ∧ out.ncol = [Dbl.fin 2, Dbl.fin 9].length + tail.ncol
      ∧ out.columns.drop [Dbl.fin 2, Dbl.fin 9].length = tail.columns :=
  comb2M_cons (Dbl.fin 6) [Dbl.fin 2, Dbl.fin 9] (by decide)

theorem pairTable_row2 (x : List Dbl) : (pairTable x).map (fun c => c.2.2) = pairDiffs x := by
  induction x with
  | nil => simp [pairTable, indexPairs, pairDiffs]
  | cons v xs ih =>
    rw [pairTable_cons, List.map_append, ih, pairDiffs, List.map_map]
    rfl

theorem row2_frameAfter (cols : List (Dbl × Dbl × Dbl)) :
    (frameAfter cols.length cols).out.row2 = cols.map (fun c => c.2.2) := by
  have h := columns_frameAfter cols
  have e : (frameAfter cols.length cols).out.row2
      = (frameAfter cols.length cols).out.columns.map (fun c => c.2.2) := by
    simp [NumericMatrix.row2, NumericMatrix.columns, NumericMatrix.column]
  rw [e, h]

theorem pairDiffs_perm {x y : List Dbl} (h : List.Perm x y) :
    List.Perm (pairDiffs x) (pairDiffs y) := by
  induction h with
  | nil => exact List.Perm.refl _
  | cons v _ ih =>
    simp only [pairDiffs]
    exact List.Perm.append (List.Perm.map _ (by assumption)) ih
  | swap a b l =>
    simp only [pairDiffs, List.map_cons, List.cons_append]
    rw [Dbl.abs_sub_swap a b]
    apply List.Perm.cons
    rw [← List.append_assoc, ← List.append_assoc]
    exact List.Perm.append_right _ List.perm_append_comm
  | trans _ _ ih1 ih2 => exact List.Perm.trans ih1 ih2

/-- C15: when the pair count fits int, for an input x and a permutation y of
it comb2M returns a table for each, and the multiset of the row2 values
(absolute differences) of the table for y equals that of the table for x. -/
theorem comb2M_row2_perm (x y : List Dbl) (hxy : List.Perm x y)
    (h : (pairCount x.length : Int) ≤ INT_MAX) :
    ∃ tx ty, comb2M x = Outcome.returned tx ∧ comb2M y = Outcome.returned ty
      ∧ (Multiset.ofList ty.row2 = Multiset.ofList tx.row2) := by
  have hy : (pairCount y.length : Int) ≤ INT_MAX := by rw [← hxy.length_eq]; exact h
  refine ⟨_, _, comb2M_eq x h, comb2M_eq y hy, ?_⟩
  rw [row2_frameAfter, row2_frameAfter, pairTable_row2, pairTable_row2]
  exact Multiset.coe_eq_coe.2 (pairDiffs_perm hxy).symm

/-- Witness of C15 at the input [5, 1, 3] and its permutation [1, 5, 3]. -/
theorem comb2M_row2_perm_witness :
    ∃ tx ty, comb2M [Dbl.fin 5, Dbl.fin 1, Dbl.fin 3] = Outcome.returned tx
      ∧ comb2M [Dbl.fin 1, Dbl.fin 5, Dbl.fin 3] = Outcome.returned ty
      ∧ (Multiset.ofList ty.row2 = Multiset.ofList tx.row2) :=
  comb2M_row2_perm [Dbl.fin 5, Dbl.fin 1, Dbl.fin 3] [Dbl.fin 1, Dbl.fin 5, Dbl.fin 3]
    (List.Perm.swap _ _ _) (by decide)

theorem offset_length (n a : Nat) (ha : a ≤ n) :
    ((List.range a).flatMap fun i =>
      (List.range' (i + 1) (n - (i + 1))).map fun k => (i, k)).length
      = a * (2 * n - a - 1) / 2 := by
  induction a with
  | zero => simp
  | succ a ih =>
    rw [List.range_succ, List.flatMap_append, List.length_append, ih (by omega),
      List.flatMap_singleton, List.length_map, List.length_range']
    obtain ⟨d, rfl⟩ := Nat.exists_eq_add_of_le ha
    have e1 : 2 * (a + 1 + d) - a - 1 = a + 1 + 2 * d := by omega
    have e2 : 2 * (a + 1 + d) - (a + 1) - 1 = a + 2 * d := by omega
    have e3 : a + 1 + d - (a + 1) = d := by omega
    rw [e1, e2, e3]
    have e4 : (a + 1) * (a + 2 * d) = a * (a + 1 + 2 * d) + 2 * d := by ring
    rw [e4, Nat.add_mul_div_left _ _ (by decide : 0 < 2)]

theorem indexPairs_getElem? (n a b : Nat) (hab : a < b) (hb : b < n) :
    (indexPairs n)[pairIndex n a b]? = some (a, b) := by
  have hsplit : List.range n = List.range a ++ (a :: List.range' (a + 1) (n - (a + 1))) := by
    rw [List.range_eq_range', List.range_eq_range', ← List.range'_succ]
    have h := List.range'_append 0 a (n - (a + 1) + 1) 1
    simp only [Nat.zero_add, Nat.one_mul] at h
    rw [h]
    congr 1
    omega
  unfold indexPairs pairIndex
  rw [hsplit, List.flatMap_append, List.flatMap_cons]
  have hoff := offset_length n a (by omega)
  rw [List.getElem?_append_right (by rw [hoff]; omega), hoff, Nat.add_sub_cancel_left,
    List.getElem?_append_left (by simp; omega), List.getElem?_map,
    List.getElem?_range' _ _ (by omega)]
  simp
  omega

theorem indexPairs_nodup (n : Nat) : (indexPairs n).Nodup := by
  unfold indexPairs
  rw [List.nodup_flatMap]
  constructor
  · intro a _
    exact List.Nodup.map (fun b c h => by simpa using h) (List.nodup_range' _ _)
  · apply List.Nodup.pairwise_of_forall_ne (List.nodup_range n)
    intro a _ c _ hac
    simp only [Function.onFun, List.disjoint_left, List.mem_map, not_exists, not_and]
    rintro p ⟨k, _, rfl⟩ m _ hm
    simp only [Prod.mk.injEq] at hm
    exact hac hm.1.symm

theorem pairIndex_lt (n a b : Nat) (hab : a < b) (hb : b < n) :
    pairIndex n a b < pairCount n := by
  obtain ⟨h, -⟩ := List.getElem?_eq_some_iff.1 (indexPairs_getElem? n a b hab hb)
  rwa [indexPairs_length] at h

theorem pairIndex_inj (n a b c d : Nat) (hab : a < b) (hb : b < n) (hcd : c < d) (hd : d < n)
    (h : pairIndex n a b = pairIndex n c d) : a = c ∧ b = d := by
  have h1 := indexPairs_getElem? n a b hab hb
  have h2 := indexPairs_getElem? n c d hcd hd
  rw [h, h2] at h1
  simpa [eq_comm] using h1

theorem pairIndex_surj (n j : Nat) (hj : j < pairCount n) :
    ∃ a b, a < b ∧ b < n ∧ pairIndex n a b = j := by
  have hj2 : j < (indexPairs n).length := by rwa [indexPairs_length]
  have hm := mem_indexPairs n _ (List.getElem_mem hj2)
  refine ⟨(indexPairs n)[j].1, (indexPairs n)[j].2, hm.1, hm.2, ?_⟩
  obtain ⟨hi, he⟩ := List.getElem?_eq_some_iff.1
    (indexPairs_getElem? n (indexPairs n)[j].1 (indexPairs n)[j].2 hm.1 hm.2)
  exact ((indexPairs_nodup n).getElem_inj_iff).1 he

theorem pairTable_getElem? (x : List Dbl) (a b : Nat) (hab : a < b) (hb : b < x.length) :
    (pairTable x)[pairIndex x.length a b]?
      = some (x.getD a 0, x.getD b 0, Dbl.abs (Dbl.sub (x.getD b 0) (x.getD a 0))) := by
  unfold pairTable
  rw [List.getElem?_map, indexPairs_getElem? _ a b hab hb]
  rfl

/-- C13: when the pair count fits int, for every index pair a < b < N the
column of comb2M's table at index a*(2N - a - 1)/2 + (b - a - 1) has
row0 = x[a] and row1 = x[b]; and this index map sends the pairs a < b < N
into the column indices below N*(N-1)/2, injectively and onto them, so every
pair appears in exactly one column. -/
theorem comb2M_pairIndex (x : List Dbl) (h : (pairCount x.length : Int) ≤ INT_MAX) :
    (∃ out, comb2M x = Outcome.returned out ∧ out.ncol = x.length * (x.length - 1) / 2
      ∧ ∀ a b, a < b → b < x.length →
          out.get 0 (a * (2 * x.length - a - 1) / 2 + (b - a - 1)) = x.getD a 0
            ∧ out.get 1 (a * (2 * x.length - a - 1) / 2 + (b - a - 1)) = x.getD b 0)
      ∧ (∀ a b, a < b → b < x.length →
          pairIndex x.length a b < x.length * (x.length - 1) / 2)
      ∧ (∀ a b c d, a < b → b < x.length → c < d → d < x.length →
          pairIndex x.length a b = pairIndex x.length c d → a = c ∧ b = d)
      ∧ (∀ j, j < x.length * (x.length - 1) / 2 →
          ∃ a b, a < b ∧ b < x.length ∧ pairIndex x.length a b = j) := by
  refine ⟨⟨_, comb2M_eq x h, ?_, ?_⟩, ?_, ?_, ?_⟩
  · simp [frameAfter, pairTable_length, pairCount]
  · intro a b hab hb
    obtain ⟨hi, he⟩ := List.getElem?_eq_some_iff.1 (pairTable_getElem? x a b hab hb)
    have hg := frameAfter_get (pairTable x) _ hi
    rw [List.getD_eq_getElem?_getD, pairTable_getElem? x a b hab hb] at hg
    simp only [Option.getD_some, Prod.mk.injEq] at hg
    exact ⟨hg.1, hg.2.1⟩
  · intro a b hab hb
    exact pairIndex_lt _ a b hab hb
  · intro a b c d hab hb hcd hd he
    exact pairIndex_inj _ a b c d hab hb hcd hd he
  · intro j hj
    exact pairIndex_surj _ j hj

/-- Witness of C13 at the input [4, 9, 2, 7]. -/
theorem comb2M_pairIndex_witness :
    ∃ out, comb2M [Dbl.fin 4, Dbl.fin 9, Dbl.fin 2, Dbl.fin 7] = Outcome.returned out
      ∧ out.get 0 (pairIndex 4 1 3) = Dbl.fin 9 ∧ out.get 1 (pairIndex 4 1 3) = Dbl.fin 7
      ∧ pairIndex 4 1 3 = 4 := by
  obtain ⟨out, ho, -, hcol⟩ :=
    (comb2M_pairIndex [Dbl.fin 4, Dbl.fin 9, Dbl.fin 2, Dbl.fin 7] (by decide)).1
  have hc := hcol 1 3 (by decide) (by decide)
  exact ⟨out, ho, hc.1, hc.2, by decide⟩

theorem Dbl.eq_abs_sub (u v : Dbl) (hu : Dbl.isNaN u = false) (hv : Dbl.isNaN v = false)
    (hne : ¬ (u = v ∧ Dbl.isFinite u = false)) :
    Dbl.eq (Dbl.abs (Dbl.sub v u)) (Dbl.abs (Dbl.sub u v)) = true := by
  cases u <;> cases v <;>
    simp [Dbl.isNaN, Dbl.isFinite, Dbl.sub, Dbl.abs, Dbl.eq] at hu hv hne ⊢
  rename_i p q
  exact abs_sub_comm q p

/-- C3 as stated fails: [-Inf, -Inf] has no NaN, comb2M returns the column
(-Inf, -Inf, NaN), and row2 does not compare equal to |row0 - row1|: both are
NaN, and a NaN compares equal to nothing. -/
theorem comb2M_row2_ne_abs_at_infinities :
    (∀ v ∈ [Dbl.negInf, Dbl.negInf], Dbl.isNaN v = false)
      ∧ comb2M [Dbl.negInf, Dbl.negInf]
          = Outcome.returned ⟨3, 1, [Dbl.negInf, Dbl.negInf, Dbl.nan]⟩
      ∧ Dbl.eq (NumericMatrix.get ⟨3, 1, [Dbl.negInf, Dbl.negInf, Dbl.nan]⟩ 2 0)
          (Dbl.abs (Dbl.sub (NumericMatrix.get ⟨3, 1, [Dbl.negInf, Dbl.negInf, Dbl.nan]⟩ 0 0)
            (NumericMatrix.get ⟨3, 1, [Dbl.negInf, Dbl.negInf, Dbl.nan]⟩ 1 0))) = false := by
  have hp : indexPairs 2 = [(0, 1)] := by decide
  refine ⟨by simp [Dbl.isNaN], ?_, by simp [NumericMatrix.get, Dbl.eq]⟩
  rw [comb2M_eq _ (by decide)]
  simp only [frameAfter, pairTable, List.length_cons, List.length_nil, hp, List.map_cons,
    List.map_nil, cellsOf, List.flatMap_cons, List.flatMap_nil, List.getD_cons_zero,
    List.getD_cons_succ, Dbl.sub, Dbl.abs]
  norm_num

/-- C3, amended: when the pair count fits int and the input has no NaN, every
column i whose row0 and row1 are not one and the same infinity has row2[i]
equal (as doubles compare, `==`) to |row0[i] - row1[i]|; for an input of
finite values this is every column. -/
theorem comb2M_row2_eq_abs (x : List Dbl) (h : (pairCount x.length : Int) ≤ INT_MAX)
    (hnan : ∀ v ∈ x, Dbl.isNaN v = false) :
    ∃ out, comb2M x = Outcome.returned out
      ∧ (∀ i, i < out.ncol →
          ¬ (out.get 0 i = out.get 1 i ∧ Dbl.isFinite (out.get 0 i) = false) →
          Dbl.eq (out.get 2 i) (Dbl.abs (Dbl.sub (out.get 0 i) (out.get 1 i))) = true)
      ∧ ((∀ v ∈ x, Dbl.isFinite v = true) → ∀ i, i < out.ncol →
          Dbl.eq (out.get 2 i) (Dbl.abs (Dbl.sub (out.get 0 i) (out.get 1 i))) = true) := by
  have key : ∀ i, i < (frameAfter (pairTable x).length (pairTable x)).out.ncol →
      ∃ p : Nat × Nat, p.1 < x.length ∧ p.2 < x.length
        ∧ (frameAfter (pairTable x).length (pairTable x)).out.get 0 i = x.getD p.1 0
        ∧ (frameAfter (pairTable x).length (pairTable x)).out.get 1 i = x.getD p.2 0
        ∧ (frameAfter (pairTable x).length (pairTable x)).out.get 2 i
            = Dbl.abs (Dbl.sub (x.getD p.2 0) (x.getD p.1 0)) := by
    intro i hi
    have hi2 : i < (pairTable x).length := hi
    have hg := frameAfter_get (pairTable x) i hi2
    obtain ⟨p, hp, h12, h2⟩ := pairTable_getD x i hi2
    rw [hp] at hg
    simp only [Prod.mk.injEq] at hg
    exact ⟨p, by omega, h2, hg.1, hg.2.1, hg.2.2⟩
  refine ⟨_, comb2M_eq x h, ?_, ?_⟩
  · intro i hi hne
    obtain ⟨p, h1, h2, e0, e1, e2⟩ := key i hi
    rw [e0, e1] at hne
    rw [e0, e1, e2]
    exact Dbl.eq_abs_sub _ _ (hnan _ (getD_mem x p.1 h1)) (hnan _ (getD_mem x p.2 h2)) hne
  · intro hfin i hi
    obtain ⟨p, h1, h2, e0, e1, e2⟩ := key i hi
    rw [e0, e1, e2]
    refine Dbl.eq_abs_sub _ _ (hnan _ (getD_mem x p.1 h1)) (hnan _ (getD_mem x p.2 h2)) ?_
    intro hc
    have := hfin _ (getD_mem x p.1 h1)
    rw [hc.2] at this
    exact Bool.noConfusion this

/-- Witness of C3 (amended) at the input [5, 1, 3, 5]. -/
theorem comb2M_row2_eq_abs_witness :
    ∃ out, comb2M [Dbl.fin 5, Dbl.fin 1, Dbl.fin 3, Dbl.fin 5] = Outcome.returned out
      ∧ ∀ i, i < out.ncol →
          Dbl.eq (out.get 2 i) (Dbl.abs (Dbl.sub (out.get 0 i) (out.get 1 i))) = true := by
  obtain ⟨out, ho, -, h2⟩ := comb2M_row2_eq_abs [Dbl.fin 5, Dbl.fin 1, Dbl.fin 3, Dbl.fin 5]
    (by decide) (by simp [Dbl.isNaN])
  exact ⟨out, ho, h2 (by simp [Dbl.isFinite])⟩

theorem fill_rest (fill : Nat → Dbl) (ncol k : Nat) (hk : k < ncol) :
    (List.range' (3 * k) (3 * (ncol - k))).map fill
      = fill (3 * k) :: fill (3 * k + 1) :: fill (3 * k + 2)
          :: (List.range' (3 * (k + 1)) (3 * (ncol - (k + 1)))).map fill := by
  have e : 3 * (ncol - k) = 3 * (ncol - (k + 1)) + 1 + 1 + 1 := by omega
  have e2 : 3 * (k + 1) = 3 * k + 1 + 1 + 1 := by omega
  rw [e, e2, List.range'_succ, List.range'_succ, List.range'_succ]
  rfl

theorem loopBody_frameOver (fill : Nat → Dbl) (x : List Dbl) (a b ncol : Nat)
    (cols : List (Dbl × Dbl × Dbl))
    (ha : a < x.length) (hb : b < x.length) (hk : cols.length < ncol)
    (hn : (ncol : Int) ≤ INT_MAX) :
    loopBody x a b (frameOver fill ncol cols)
      = Outcome.returned (frameOver fill ncol (cols ++ [columnOf x (a, b)])) := by
  have hc2 : (cols.length : Int) < (ncol : Int) := by omega
  have hc : (cols.length : Int) < INT_MAX := lt_of_lt_of_le hc2 hn
  have h0 : (0 : Nat) < 3 := by omega
  have h1 : (1 : Nat) < 3 := by omega
  have h2 : (2 : Nat) < 3 := by omega
  unfold loopBody
  simp only [readAt_eq x a ha, readAt_eq x b hb, Outcome.returned_bind, frameOver]
  rw [assign_mk _ _ _ _ _ _ _ h0 hk, Outcome.returned_bind, assign_mk _ _ _ _ _ _ _ h1 hk,
    Outcome.returned_bind]
  simp only [assign_mk _ _ _ _ _ _ _ h2 hk]
  have hfin : ∀ d : Dbl,
      (Outcome.returned
        (⟨⟨3, ncol, (((cellsOf cols
              ++ (List.range' (3 * cols.length) (3 * (ncol - cols.length))).map fill).set
            (0 + 3 * cols.length) (x.getD a 0)).set (1 + 3 * cols.length) (x.getD b 0)).set
            (2 + 3 * cols.length) d⟩, (cols.length : Int),
          writesOf 0 cols.length ++ [(0, (cols.length : Int))] ++ [(1, (cols.length : Int))]
            ++ [(2, (cols.length : Int))]⟩ : Frame) >>= Frame.incr)
      = Outcome.returned
        ⟨⟨3, ncol, cellsOf (cols ++ [(x.getD a 0, x.getD b 0, d)])
            ++ (List.range' (3 * (cols ++ [(x.getD a 0, x.getD b 0, d)]).length)
                (3 * (ncol - (cols ++ [(x.getD a 0, x.getD b 0, d)]).length))).map fill⟩,
          ((cols ++ [(x.getD a 0, x.getD b 0, d)]).length : Int),
          writesOf 0 (cols ++ [(x.getD a 0, x.getD b 0, d)]).length⟩ := by
    intro d
    rw [Outcome.returned_bind, incr_mk _ _ _ hc, fill_rest fill ncol cols.length hk,
      set_three _ _ _ (cellsOf_length cols)]
    simp [cellsOf_append, cellsOf, writesOf_succ]
  by_cases hgt : Dbl.gt (x.getD b 0) (x.getD a 0) = true
  · rw [if_pos hgt, hfin]
    unfold columnOf branchDiff
    rw [if_pos hgt]
  · rw [if_neg hgt, hfin]
    unfold columnOf branchDiff
    rw [if_neg hgt]

theorem forLoop_pairs_over (fill : Nat → Dbl) (x : List Dbl) (ncol : Nat)
    (hn : (ncol : Int) ≤ INT_MAX)
    (ps : List (Nat × Nat)) (cols : List (Dbl × Dbl × Dbl))
    (hps : ∀ p ∈ ps, p.1 < x.length ∧ p.2 < x.length) (hlen : cols.length + ps.length ≤ ncol) :
    forLoop (fun p => loopBody x p.1 p.2) ps (frameOver fill ncol cols)
      = Outcome.returned (frameOver fill ncol (cols ++ ps.map (columnOf x))) := by
  induction ps generalizing cols with
  | nil => simp [forLoop]
  | cons p ps ih =>
    have hp := hps p (List.mem_cons_self _ _)
    have hk : cols.length < ncol := by simp at hlen; omega
    simp only [forLoop, loopBody_frameOver fill x p.1 p.2 ncol cols hp.1 hp.2 hk hn]
    have := ih (cols ++ [columnOf x (p.1, p.2)])
      (fun q hq => hps q (List.mem_cons_of_mem _ hq)) (by simp at hlen ⊢; omega)
    simpa [Outcome.bind] using this

theorem createOver_fits (fill : Nat → Dbl) (ncols : Nat) (h : (ncols : Int) ≤ INT_MAX) :
    NumericMatrix.createOver fill 3 (ncols : Int)
      = Outcome.returned (frameOver fill ncols []).out := by
  have h1 : doubleToInt (ncols : Int) = (ncols : Int) := by
    unfold doubleToInt
    rw [if_pos]
    unfold INT_MIN
    exact ⟨by omega, h⟩
  have h2 : ¬ ((ncols : Int) < 0) := by omega
  simp [NumericMatrix.createOver, h1, h2, frameOver, cellsOf, List.range_eq_range']

theorem frameOver_full (fill : Nat → Dbl) (cols : List (Dbl × Dbl × Dbl)) :
    (frameOver fill cols.length cols).out = (frameAfter cols.length cols).out := by
  simp [frameOver, frameAfter]

theorem comb2MOver_eq (fill : Nat → Dbl) (x : List Dbl)
    (h : (pairCount x.length : Int) ≤ INT_MAX) :
    comb2MOver fill x = Outcome.returned (frameAfter (pairTable x).length (pairTable x)).out := by
  have hN : x.length ≤ 65536 := (pairCount_fits_iff _).1 h
  unfold comb2MOver
  simp only [toInt_small _ hN, Rf_choose_two_nat, createOver_fits fill _ h, Outcome.returned_bind,
    Outcome.pure_eq]
  unfold outerLoop innerLoop
  rw [Int.toNat_ofNat, forLoop_nested (fun a => List.range' (a + 1) (x.length - (a + 1)))
    (fun a b => loopBody x a b)]
  have hrun := forLoop_pairs_over fill x (pairCount x.length) h (indexPairs x.length) []
    (fun p hp => by have := mem_indexPairs _ p hp; omega)
    (by simp [indexPairs_length])
  have e0 : ({ out := (frameOver fill (pairCount x.length) []).out, counter := 0, writes := [] }
      : Frame) = frameOver fill (pairCount x.length) [] := by
    simp [frameOver, writesOf]
  rw [e0]
  have e1 : (fun p : Nat × Nat => loopBody x p.1 p.2) = fun p => loopBody x p.1 p.2 := rfl
  have e2 : (List.range x.length).flatMap (fun i =>
      (List.range' (i + 1) (x.length - (i + 1))).map fun k => (i, k)) = indexPairs x.length := rfl
  rw [e2, hrun, Outcome.returned_bind, List.nil_append, map_columnOf]
  have e3 : pairCount x.length = (pairTable x).length := (pairTable_length x).symm
  rw [e3, frameOver_full]

theorem Outcome.bind_assoc {σ τ υ : Type} (o : Outcome σ) (f : σ → Outcome τ)
    (g : τ → Outcome υ) : (o.bind f).bind g = o.bind fun v => (f v).bind g := by
  cases o <;> rfl

theorem comb2MOver_zero (x : List Dbl) : comb2MOver (fun _ => 0) x = comb2M x := by
  have hc : ∀ n m, NumericMatrix.createOver (fun _ => 0) n m = NumericMatrix.create n m := by
    intro n m
    unfold NumericMatrix.createOver NumericMatrix.create
    rw [List.map_const', List.length_range]
  unfold comb2MOver comb2M comb2MFrame
  simp only [hc, Outcome.bind_eq, Outcome.bind_assoc]

/-- C12: comb2M is a function of its input alone. The state an earlier call
can leave behind is the content of the memory the matrix is allocated in: run
over zero-filled memory the function is comb2M itself, and when the pair count
fits int the call returns the same table over every prior content of that
memory (every cell is overwritten), so two calls in sequence on the same
input, whatever memory each of them finds, return one and the same table. -/
theorem comb2M_pure (x : List Dbl) :
    comb2MOver (fun _ => 0) x = comb2M x
      ∧ ((pairCount x.length : Int) ≤ INT_MAX →
          ∃ out, comb2M x = Outcome.returned out
            ∧ (∀ fill : Nat → Dbl, comb2MOver fill x = Outcome.returned out)
            ∧ (∀ fill1 fill2 : Nat → Dbl,
                comb2MTwice fill1 fill2 x = Outcome.returned (out, out))) := by
  refine ⟨comb2MOver_zero x, fun h => ⟨_, comb2M_eq x h, fun fill => comb2MOver_eq fill x h, ?_⟩⟩
  intro fill1 fill2
  unfold comb2MTwice
  rw [comb2MOver_eq fill1 x h, comb2MOver_eq fill2 x h]
  rfl

/-- Witness of C12 at the input [5, 1, 3], the first call over memory full of
sevens and the second over memory full of NaN. -/
theorem comb2M_pure_witness :
    ∃ out, comb2M [Dbl.fin 5, Dbl.fin 1, Dbl.fin 3] = Outcome.returned out
      ∧ comb2MOver (fun _ => Dbl.fin 7) [Dbl.fin 5, Dbl.fin 1, Dbl.fin 3] = Outcome.returned out
      ∧ comb2MTwice (fun _ => Dbl.fin 7) (fun _ => Dbl.nan) [Dbl.fin 5, Dbl.fin 1, Dbl.fin 3]
          = Outcome.returned (out, out) := by
  obtain ⟨out, ho, h1, h2⟩ := (comb2M_pure [Dbl.fin 5, Dbl.fin 1, Dbl.fin 3]).2 (by decide)
  exact ⟨out, ho, h1 _, h2 _ _⟩
